import Mathlib

/-!
# Verification of the batch dispatch engine (`src/gui/workers.py`, `src/gui/main_window.py`)

A shallow embedding of the core of the repository: the folder scanner
(`FolderScannerThread`), the consumer handoff (`GeminiSkyRemovalGUI.on_folder_scanned`),
and the processing worker (`ProcessingWorker`) with its rate limiter, retry/backoff
controller and result aggregation.

Modelling conventions:
* Wall-clock time is `ℚ` (Python's `time.time()` returns seconds since the epoch).
* The asynchronous cancellation flag of the worker is modelled by the time
  `cancelAt` at which it becomes set; `is_cancelled` observed at time `t` is
  `cancelAt ≤ t`.  Polling sleeps observe the flag at idealized granularity:
  a sleep cut short by cancellation ends at the moment the flag is set.
* The scanner's cancellation flag and the injected I/O failure are modelled by
  thresholds on a step counter that advances once per directory visited and
  once per file examined.
* The external transformation call (`sky_remover.gemini_sky_removal`) is a
  black box: each work item carries a script assigning to the k-th dispatch
  attempt a duration and an outcome (success, or an exception message).
* `os.path.exists` is an oracle `String → Bool` supplied as a parameter.
* Paths use the POSIX separator `/`; `str.lower` is modelled by ASCII
  lowering (`Char.toLower`), which is exact on all strings the code compares.
* Qt signal emissions are recorded as events in a trace; the numeric payload
  of progress messages is kept, display-only formatted text of the pacing /
  backoff progress messages is carried structurally by dedicated events.
-/

namespace GeminiWorkers


/-! ## Python string/path primitives (`os.path` on POSIX, `str` methods) -/

/-- `str.lower`, restricted to ASCII (all comparisons in the source are ASCII). -/
def py_lower (s : String) : String := String.mk (s.toList.map Char.toLower)

/-- Substring containment, Python's `needle in hay`. -/
def list_contains_sub (hay needle : List Char) : Bool :=
  needle.isPrefixOf hay ||
    match hay with
    | [] => false
    | _ :: t => list_contains_sub t needle

/-- Python `needle in hay` on strings. -/
def str_contains_sub (hay needle : String) : Bool :=
  list_contains_sub hay.toList needle.toList

/-- Python `s.endswith(t)`. -/
def str_ends_with (s t : String) : Bool :=
  t.toList.isSuffixOf s.toList

/-- Python `s.rstrip(os.sep)` with `os.sep = '/'`. -/
def rstrip_sep (s : String) : String :=
  String.mk ((s.toList.reverse.dropWhile (· = '/')).reverse)

/-- The characters of `p` after the last `/` (the `tail` of `os.path.split`). -/
def after_last_slash (l : List Char) : List Char :=
  (l.reverse.takeWhile (· ≠ '/')).reverse

/-- The characters of `p` up to and including the last `/` (the raw `head`). -/
def upto_last_slash (l : List Char) : List Char :=
  (l.reverse.dropWhile (· ≠ '/')).reverse

/-- `os.path.basename` (POSIX). -/
def py_basename (p : String) : String :=
  String.mk (after_last_slash p.toList)

/-- `os.path.dirname` (POSIX): the head of the split, with trailing slashes
stripped unless the head consists only of slashes. -/
def py_dirname (p : String) : String :=
  let head := upto_last_slash p.toList
  if head.all (· = '/') then String.mk head
  else String.mk ((head.reverse.dropWhile (· = '/')).reverse)

/-- `os.path.join(a, b)` (POSIX, two arguments as used by the source). -/
def py_join (a b : String) : String :=
  if b.toList.head? = some '/' then b
  else if a = "" then b
  else if a.toList.getLast? = some '/' then a ++ b
  else a ++ "/" ++ b

/-- The stem of `os.path.splitext`, for the basenames the source applies it to:
the extension starts at the last dot, provided some earlier character of the
name is not a dot (CPython's leading-dot rule). -/
def py_splitext_stem (base : String) : String :=
  let l := base.toList
  let rev := l.reverse
  let extRev := rev.takeWhile (· ≠ '.')
  if extRev.length = l.length then base
  else
    let stem := (rev.drop (extRev.length + 1)).reverse
    if stem.any (· ≠ '.') then String.mk stem else base

/-! ## `FolderScannerThread` (work discovery) -/

/-- `FolderScannerThread._is_result_directory`. -/
def is_result_directory (directory_path : String) : Bool :=
  let name := py_lower (py_basename (rstrip_sep directory_path))
  str_ends_with name "_gemini_results" || str_contains_sub name "gemini_results"

/-- `FolderScannerThread._is_result_file`. -/
def is_result_file (filename : String) : Bool :=
  str_contains_sub (py_lower filename) "gemini"

/-- The scanner's recognized input image extensions. -/
def image_extensions : List String :=
  [".jpg", ".jpeg", ".png", ".bmp", ".tiff", ".tif", ".webp"]

/-- `any(file.lower().endswith(ext) for ext in image_extensions)`. -/
def has_image_extension (file : String) : Bool :=
  image_extensions.any (fun ext => str_ends_with (py_lower file) ext)

/-- The output extensions probed by `_find_existing_result`. -/
def result_extensions : List String := [".jpg", ".jpeg", ".png", ".webp"]

/-- `FolderScannerThread._find_existing_result`, with `os.path.exists`
abstracted as the oracle `fsExists`.  The Python `set` of candidate
directories is modelled as a deduplicated list in insertion order. -/
def find_existing_result (fsExists : String → Bool) (image_path : String) :
    Option String :=
  let imageDir := py_dirname image_path
  let imageName := py_splitext_stem (py_basename image_path)
  let parentDir := py_dirname imageDir
  let candidates :=
    ([imageDir, py_join imageDir (imageName ++ "_gemini_results")] ++
      (if parentDir ≠ "" then
        [py_join parentDir (py_basename imageDir ++ "_gemini_results"),
         py_join parentDir "gemini_results"]
      else [])).eraseDups
  candidates.findSome? (fun dir =>
    if dir = "" then none
    else
      let stem := py_join dir (imageName ++ "_gemini")
      result_extensions.findSome? (fun ext =>
        if fsExists (stem ++ ext) then some (stem ++ ext) else none))

/-- A directory tree, as walked by `os.walk`: a name, subdirectories, files. -/
inductive FSDir : Type where
  | node (name : String) (subdirs : List FSDir) (files : List String) : FSDir

/-- Scanner configuration: the argument `folder_path`, the `os.path.exists`
oracle, and the thresholds modelling the asynchronous cancellation flag and
an injected I/O failure during the walk. -/
structure ScanCfg where
  folderPath : String
  fsExists : String → Bool
  cancelAfter : Option ℕ
  failAfter : Option ℕ

/-- Mutable state of `FolderScannerThread.run`.  `visited` is ghost
instrumentation recording the directories whose contents the walk examined. -/
structure ScanSt where
  imageFiles : List String := []
  alreadyProcessed : List (String × String) := []
  alreadyCount : ℕ := 0
  skippedDirCount : ℕ := 0
  skippedFileCount : ℕ := 0
  visited : List String := []
  steps : ℕ := 0

/-- The scanner's `is_cancelled` flag, observed at the current step count. -/
def scanCancelled (cfg : ScanCfg) (st : ScanSt) : Bool :=
  match cfg.cancelAfter with
  | none => false
  | some k => k ≤ st.steps

/-- Whether the injected I/O failure fires at the current step count. -/
def scanFails (cfg : ScanCfg) (st : ScanSt) : Bool :=
  match cfg.failAfter with
  | none => false
  | some k => k ≤ st.steps

/-- The per-file body of the scanner's walk loop (the `for file in files`
loop), including its `if self.is_cancelled: break`. -/
def processFiles (cfg : ScanCfg) (full : String) :
    List String → ScanSt → ScanSt
  | [], st => st
  | f :: fs, st =>
    if scanCancelled cfg st then st
    else
      let st := { st with steps := st.steps + 1 }
      if is_result_file f then
        processFiles cfg full fs
          { st with skippedFileCount := st.skippedFileCount + 1 }
      else if ¬ has_image_extension f then processFiles cfg full fs st
      else
        let fullPath := py_join full f
        match find_existing_result cfg.fsExists fullPath with
        | some r =>
          processFiles cfg full fs
            { st with
                alreadyProcessed := st.alreadyProcessed ++ [(fullPath, r)],
                alreadyCount := st.alreadyCount + 1 }
        | none =>
          processFiles cfg full fs
            { st with imageFiles := st.imageFiles ++ [fullPath] }

mutual
/-- One iteration of the scanner's `os.walk` loop at directory `full` with
contents `d`, followed (depth-first, in order) by the non-pruned children.
An `Except.error` carries the partial state at the injected I/O failure. -/
def walkDir (cfg : ScanCfg) (full : String) (d : FSDir) (st : ScanSt) :
    Except ScanSt ScanSt :=
  if scanCancelled cfg st then .ok st
  else if scanFails cfg st then .error st
  else
    let st := { st with steps := st.steps + 1 }
    if is_result_directory full then
      .ok { st with skippedDirCount := st.skippedDirCount + 1 }
    else
      match d with
      | .node _ subdirs files =>
        let st := { st with visited := st.visited ++ [full] }
        let st := processFiles cfg full files st
        walkDirs cfg full subdirs st

/-- Walks the listed children of `parent` in order; a child whose joined path
matches the results-directory pattern is pruned (`dirs[:] = [...]` filter). -/
def walkDirs (cfg : ScanCfg) (parent : String) :
    List FSDir → ScanSt → Except ScanSt ScanSt
  | [], st => .ok st
  | c :: cs, st =>
    match c with
    | .node name _ _ =>
      if is_result_directory (py_join parent name) then
        walkDirs cfg parent cs
          { st with skippedDirCount := st.skippedDirCount + 1 }
      else
        match walkDir cfg (py_join parent name) c st with
        | .error e => .error e
        | .ok st' => walkDirs cfg parent cs st'
end


/-- The two Qt signals of `FolderScannerThread`. -/
inductive ScanEvent : Type where
  | filesFound (files : List String) : ScanEvent
  | scanFinished (total : ℕ) : ScanEvent
deriving DecidableEq

/-- `FolderScannerThread.run`: the walk wrapped in `try/except`; on success
and no cancellation it emits `files_found` then `scan_finished`; when
cancelled it emits nothing; on an exception it emits `scan_finished(0)`.
Returns the emitted events and the final `self.already_processed` state. -/
def scannerRun (cfg : ScanCfg) (root : FSDir) : List ScanEvent × ScanSt :=
  match walkDir cfg cfg.folderPath root {} with
  | .error st => ([.scanFinished 0], st)
  | .ok st =>
    if scanCancelled cfg st then ([], st)
    else
      ([.filesFound st.imageFiles,
        .scanFinished (st.imageFiles.length + st.alreadyCount)], st)

/-! ## `GeminiSkyRemovalGUI.on_folder_scanned` (the consumer handoff) -/

/-- Insert into an association list with Python-`dict` semantics: an existing
key is overwritten in place, a new key is appended. -/
def dict_insert (l : List (String × String)) (k v : String) :
    List (String × String) :=
  if l.any (fun p => p.1 = k) then
    l.map (fun p => if p.1 = k then (k, v) else p)
  else l ++ [(k, v)]

/-- A Python dict comprehension over a list of pairs (later keys overwrite). -/
def dict_of_pairs (l : List (String × String)) : List (String × String) :=
  l.foldl (fun acc p => dict_insert acc p.1 p.2) []

/-- `on_folder_scanned`: filters `already_processed` by truthiness and
`os.path.exists`, then hands the consumer the sorted pending list of scanned
files not in the processed map.  Python's stable `sorted` is `mergeSort`. -/
def on_folder_scanned (fsExists : String → Bool)
    (already : List (String × String)) (image_files : List String) :
    List String × List (String × String) :=
  let processedMap :=
    dict_of_pairs (already.filter (fun p =>
      p.1 ≠ "" && p.2 ≠ "" && fsExists p.2))
  let pending :=
    (image_files.filter (fun p => ¬ processedMap.any (fun q => q.1 = p))).mergeSort
      (fun a b => a ≤ b)
  (pending, processedMap)

/-! ## `ProcessingWorker` (orchestrator, rate limiter, retry/backoff) -/

/-- `ProcessingWorker.max_retries`. -/
def maxRetries : ℕ := 3

/-- The transient-error classifier of `_handle_rate_limit_error`:
`str(error).lower()` contains `"rate limit"`, `"quota exceeded"` or `"429"`. -/
def is_transient_error (msg : String) : Bool :=
  let es := py_lower msg
  str_contains_sub es "rate limit" || str_contains_sub es "quota exceeded" ||
    str_contains_sub es "429"

/-- The retry-budget-exhausted message emitted on the 4th transient error. -/
def budget_message : String :=
  "Rate limit exceeded after " ++ toString maxRetries ++
    " retries. Please wait before trying again."

/-- The generic per-item failure message `Failed to process {basename}: {e}`. -/
def failure_message (image_path msg : String) : String :=
  "Failed to process " ++ py_basename image_path ++ ": " ++ msg

/-- Outcome of one scripted call to the external collaborator. -/
inductive CallOutcome : Type where
  | success : CallOutcome
  | failure (msg : String) : CallOutcome
deriving DecidableEq

/-- One scripted external call: how long it blocks and how it ends. -/
structure Call where
  duration : ℚ
  outcome : CallOutcome

/-- A work item: its input path and the script of its dispatch attempts
(the k-th dispatch of this item behaves as `calls k`). -/
structure WorkItemScript where
  path : String
  calls : ℕ → Call

/-- The entry recorded in `results` for one item. -/
inductive ItemResult : Type where
  | success (outputPath : String) : ItemResult
  | failure (error : String) : ItemResult
deriving DecidableEq

/-- The observable events of a worker run.  `progress` carries the integer
percentage (`-1` sentinels of the sleep messages are carried structurally by
`rateWait`/`backoff`, whose `completed` flag is the sleep's return value);
`dispatch` is ghost instrumentation marking a call to the external
collaborator, with the 1-based item index and the dispatch time. -/
inductive Event : Type where
  | rateWait (duration : ℚ) (completed : Bool) : Event
  | backoff (itemIdx : ℕ) (n : ℕ) (duration : ℚ) (completed : Bool) : Event
  | progress (pct : ℤ) : Event
  | dispatch (itemIdx : ℕ) (path : String) (time : ℚ) : Event
  | imageProcessed (path outputPath : String) : Event
  | errorOccurred (msg path : String) : Event
  | finishedAll (results : List (String × ItemResult)) : Event
deriving DecidableEq

/-- Worker configuration: output directory, `rate_limit_delay`, and the time
at which the asynchronous cancellation flag becomes set (`none` = never). -/
structure WorkerCfg where
  outputDir : String
  rateLimitDelay : ℚ
  cancelAt : Option ℚ

/-- The worker's mutable timing state: the current wall clock and
`self.last_request_time`. -/
structure WorkerSt where
  now : ℚ
  lastRequestTime : ℚ

/-- `self.is_cancelled`, observed at time `t`. -/
def workerCancelled (cfg : WorkerCfg) (t : ℚ) : Bool :=
  match cfg.cancelAt with
  | none => false
  | some c => c ≤ t

/-- `ProcessingWorker._sleep_with_cancel`: returns the exit time and whether
the sleep completed without observing cancellation.  A non-positive total
returns `True` immediately (before any flag check); a sleep in progress when
the flag is set ends at the moment it is set (idealized polling). -/
def sleep_with_cancel (cfg : WorkerCfg) (now total : ℚ) : ℚ × Bool :=
  if total ≤ 0 then (now, true)
  else
    match cfg.cancelAt with
    | none => (now + total, true)
    | some c =>
      if c ≤ now then (now, false)
      else if c ≤ now + total then (c, false)
      else (now + total, true)

/-- `ProcessingWorker._wait_for_rate_limit`: sleeps out the remainder of
`rate_limit_delay` since `last_request_time`; on normal completion records
`self.last_request_time = time.time()`.  Emits the rate-limiting progress
message only when a wait is needed. -/
def wait_for_rate_limit (cfg : WorkerCfg) (st : WorkerSt) :
    WorkerSt × Bool × List Event :=
  let timeSince := st.now - st.lastRequestTime
  if timeSince < cfg.rateLimitDelay then
    let waitTime := cfg.rateLimitDelay - timeSince
    let r := sleep_with_cancel cfg st.now waitTime
    if r.2 then
      ({ now := r.1, lastRequestTime := r.1 }, true, [.rateWait waitTime true])
    else ({ st with now := r.1 }, false, [.rateWait waitTime false])
  else ({ st with lastRequestTime := st.now }, true, [])

/-- `ProcessingWorker._handle_rate_limit_error` at retry counter `rc` (the
value of `self.retry_count` before the handler increments it).  Returns the
new state, the handler's boolean (retry?) and the emitted events; the caller
resumes with retry counter `rc + 1` exactly when the error was transient,
mirroring the handler's `self.retry_count += 1`. -/
def handle_rate_limit_error (cfg : WorkerCfg) (idx : ℕ) (st : WorkerSt)
    (rc : ℕ) (msg image_path : String) : WorkerSt × Bool × List Event :=
  if is_transient_error msg then
    if rc + 1 ≤ maxRetries then
      let backoffTime : ℚ := 30 * 2 ^ rc
      let r := sleep_with_cancel cfg st.now backoffTime
      ({ st with now := r.1 }, r.2, [.backoff idx (rc + 1) backoffTime r.2])
    else (st, false, [.errorOccurred budget_message image_path])
  else (st, false, [])

/-- The pre-dispatch section of the worker's `try` block: the rate-limit wait
and the cancellation check, both executed only when `i > 1`.  The boolean is
whether processing of this attempt proceeds to the dispatch. -/
def pre_dispatch (cfg : WorkerCfg) (idx : ℕ) (st : WorkerSt) :
    WorkerSt × List Event × Bool :=
  if 1 < idx then
    let r := wait_for_rate_limit cfg st
    if ¬ r.2.1 then (r.1, r.2.2, false)
    else if workerCancelled cfg r.1.now then (r.1, r.2.2, false)
    else (r.1, r.2.2, true)
  else (st, [], true)

/-- The worker's inner `while self.retry_count <= self.max_retries` loop for
the item at 1-based index `idx` of `total`, entered with retry counter `rc`.
Returns the final state, the emitted events, and the `results` entry the loop
recorded for the item (`none` when it broke out on cancellation). -/
def processItem (cfg : WorkerCfg) (total idx : ℕ) (it : WorkItemScript)
    (st : WorkerSt) (rc : ℕ) : WorkerSt × List Event × Option ItemResult :=
  if h : rc ≤ maxRetries then
    let p := pre_dispatch cfg idx st
    if ¬ p.2.2 then (p.1, p.2.1, none)
    else
      let st₁ := p.1
      let evPre := p.2.1 ++ [Event.progress (((idx : ℤ) - 1) * 100 / total)]
      let imageName := py_splitext_stem (py_basename it.path)
      let outputPath := py_join cfg.outputDir (imageName ++ "_gemini.jpg")
      let call := it.calls rc
      let evD := Event.dispatch idx it.path st₁.now
      let st₂ : WorkerSt := { st₁ with now := st₁.now + call.duration }
      match call.outcome with
      | .success =>
        (st₂, evPre ++ [evD, .imageProcessed it.path outputPath],
          some (.success outputPath))
      | .failure msg =>
        if workerCancelled cfg st₂.now then (st₂, evPre ++ [evD], none)
        else
          let hr := handle_rate_limit_error cfg idx st₂ rc msg it.path
          if workerCancelled cfg hr.1.now then
            (hr.1, evPre ++ [evD] ++ hr.2.2, none)
          else if hr.2.1 then
            let r := processItem cfg total idx it hr.1 (rc + 1)
            (r.1, evPre ++ [evD] ++ hr.2.2 ++ r.2.1, r.2.2)
          else
            (hr.1,
              evPre ++ [evD] ++ hr.2.2 ++
                [.errorOccurred (failure_message it.path msg) it.path],
              some (.failure msg))
  else (st, [], none)
termination_by maxRetries + 1 - rc

/-- `results[image_path] = {...}`, performed exactly when the item's retry
loop recorded an outcome (Python dict insertion: an existing key is
overwritten in place, a new key is appended). -/
def record_result (results : List (String × ItemResult)) (path : String) :
    Option ItemResult → List (String × ItemResult)
  | some v =>
    if results.any (fun p => p.1 = path) then
      results.map (fun p => if p.1 = path then (path, v) else p)
    else results ++ [(path, v)]
  | none => results

/-- The worker's outer `for i, image_path in enumerate(...)` loop, processing
the remaining `items` starting at 1-based index `idx`, threading the
`results` dictionary. -/
def runItems (cfg : WorkerCfg) (total : ℕ) :
    List WorkItemScript → ℕ → WorkerSt → List (String × ItemResult) →
    WorkerSt × List Event × List (String × ItemResult)
  | [], _, st, results => (st, [], results)
  | it :: rest, idx, st, results =>
    if workerCancelled cfg st.now then (st, [], results)
    else
      let r := processItem cfg total idx it st 0
      let results₁ := record_result results it.path r.2.2
      if workerCancelled cfg r.1.now then (r.1, r.2.1, results₁)
      else
        let r' := runItems cfg total rest (idx + 1) r.1 results₁
        (r'.1, r.2.1 ++ r'.2.1, r'.2.2)

/-- `ProcessingWorker.run`: the whole run from start time `t₀` with
`self.last_request_time = 0`; always ends by emitting the 100% progress and
the `finished_all` aggregate. -/
def runWorker (cfg : WorkerCfg) (items : List WorkItemScript) (t₀ : ℚ) :
    List Event × List (String × ItemResult) :=
  let r := runItems cfg items.length items 1 { now := t₀, lastRequestTime := 0 } []
  (r.2.1 ++ [.progress 100, .finishedAll r.2.2], r.2.2)

/-! ## Trace observations -/

/-- The dispatches of a trace: `(item index, dispatch time)`, in order. -/
def dispatches (evs : List Event) : List (ℕ × ℚ) :=
  evs.filterMap (fun e =>
    match e with
    | .dispatch idx _ t => some (idx, t)
    | _ => none)

/-- The backoff sleeps of a trace: `(retry number, duration, completed)`. -/
def backoffs (evs : List Event) : List (ℕ × ℚ × Bool) :=
  evs.filterMap (fun e =>
    match e with
    | .backoff _ n dur ok => some (n, dur, ok)
    | _ => none)

/-- A pacing or backoff sleep that was cut short by cancellation. -/
def isCutWait (e : Event) : Bool :=
  match e with
  | .rateWait _ false => true
  | .backoff _ _ _ false => true
  | _ => false

/-- Is the event a dispatch to the external collaborator? -/
def isDispatchEv (e : Event) : Bool :=
  match e with
  | .dispatch _ _ _ => true
  | _ => false

/-! ## Helper lemmas: trace observations -/

@[simp] theorem dispatches_nil : dispatches [] = [] := rfl

@[simp] theorem dispatches_append (l₁ l₂ : List Event) :
    dispatches (l₁ ++ l₂) = dispatches l₁ ++ dispatches l₂ :=
  List.filterMap_append ..

@[simp] theorem dispatches_rateWait (d : ℚ) (b : Bool) (l : List Event) :
    dispatches (.rateWait d b :: l) = dispatches l := rfl

@[simp] theorem dispatches_backoff (i n : ℕ) (d : ℚ) (b : Bool) (l : List Event) :
    dispatches (.backoff i n d b :: l) = dispatches l := rfl

@[simp] theorem dispatches_progress (p : ℤ) (l : List Event) :
    dispatches (.progress p :: l) = dispatches l := rfl

@[simp] theorem dispatches_dispatch (i : ℕ) (s : String) (t : ℚ) (l : List Event) :
    dispatches (.dispatch i s t :: l) = (i, t) :: dispatches l := rfl

@[simp] theorem dispatches_imageProcessed (s o : String) (l : List Event) :
    dispatches (.imageProcessed s o :: l) = dispatches l := rfl

@[simp] theorem dispatches_errorOccurred (m s : String) (l : List Event) :
    dispatches (.errorOccurred m s :: l) = dispatches l := rfl

@[simp] theorem dispatches_finishedAll (r : List (String × ItemResult)) (l : List Event) :
    dispatches (.finishedAll r :: l) = dispatches l := rfl

@[simp] theorem backoffs_nil : backoffs [] = [] := rfl

@[simp] theorem backoffs_append (l₁ l₂ : List Event) :
    backoffs (l₁ ++ l₂) = backoffs l₁ ++ backoffs l₂ :=
  List.filterMap_append ..

@[simp] theorem backoffs_rateWait (d : ℚ) (b : Bool) (l : List Event) :
    backoffs (.rateWait d b :: l) = backoffs l := rfl

@[simp] theorem backoffs_backoff (i n : ℕ) (d : ℚ) (b : Bool) (l : List Event) :
    backoffs (.backoff i n d b :: l) = (n, d, b) :: backoffs l := rfl

@[simp] theorem backoffs_progress (p : ℤ) (l : List Event) :
    backoffs (.progress p :: l) = backoffs l := rfl

@[simp] theorem backoffs_dispatch (i : ℕ) (s : String) (t : ℚ) (l : List Event) :
    backoffs (.dispatch i s t :: l) = backoffs l := rfl

@[simp] theorem backoffs_imageProcessed (s o : String) (l : List Event) :
    backoffs (.imageProcessed s o :: l) = backoffs l := rfl

@[simp] theorem backoffs_errorOccurred (m s : String) (l : List Event) :
    backoffs (.errorOccurred m s :: l) = backoffs l := rfl

@[simp] theorem backoffs_finishedAll (r : List (String × ItemResult))
    (l : List Event) : backoffs (.finishedAll r :: l) = backoffs l := rfl

/-- The consecutive-dispatch pacing relation asserted from the second item on:
whenever the earlier of two consecutive dispatches belongs to an item of index
at least 2, the later one follows it by at least `delay` seconds. -/
def pacedRel (delay : ℚ) (a b : ℕ × ℚ) : Prop := 2 ≤ a.1 → a.2 + delay ≤ b.2

/-- After a wait that was cut short by cancellation, no dispatch occurs. -/
def cutRel (a b : Event) : Prop := isCutWait a = true → isDispatchEv b = false

/-- The worker state right after the external call of the current attempt. -/
def post_call_state (cfg : WorkerCfg) (idx : ℕ) (it : WorkItemScript)
    (st : WorkerSt) (rc : ℕ) : WorkerSt :=
  { now := (pre_dispatch cfg idx st).1.now + (it.calls rc).duration,
    lastRequestTime := (pre_dispatch cfg idx st).1.lastRequestTime }

/-- The error handler as invoked by the current attempt. -/
def item_handle (cfg : WorkerCfg) (idx : ℕ) (it : WorkItemScript)
    (st : WorkerSt) (rc : ℕ) (msg : String) : WorkerSt × Bool × List Event :=
  handle_rate_limit_error cfg idx (post_call_state cfg idx it st rc) rc msg it.path

/-- The events of one attempt up to and including the dispatch. -/
def attempt_events (cfg : WorkerCfg) (total idx : ℕ) (it : WorkItemScript)
    (st : WorkerSt) : List Event :=
  (pre_dispatch cfg idx st).2.1 ++
    [Event.progress (((idx : ℤ) - 1) * 100 / total),
     Event.dispatch idx it.path (pre_dispatch cfg idx st).1.now]

/-- The output path computed for the item. -/
def out_path (cfg : WorkerCfg) (it : WorkItemScript) : String :=
  py_join cfg.outputDir (py_splitext_stem (py_basename it.path) ++ "_gemini.jpg")

/-- Does the event report the exhausted retry budget? -/
def is_budget_error : Event → Bool
  | .errorOccurred m _ => m == budget_message
  | _ => false

/-- The number of error events naming the exhausted retry budget. -/
def count_budget (evs : List Event) : ℕ := (evs.filter is_budget_error).length

/-! ## Scanner soundness: pruning and file exclusion -/

/-- A chain of directory components descending from `full`, none of which
matches the results-directory pattern at its full joined path. -/
def good_chain : String → List String → Prop
  | _, [] => True
  | full, c :: rest =>
    is_result_directory (py_join full c) = false ∧
      good_chain (py_join full c) rest

/-- The full path reached by joining the components onto `full`. -/
def chain_path : String → List String → String
  | full, [] => full
  | full, c :: rest => chain_path (py_join full c) rest

/-- The walk reached `dir` through non-result directories only. -/
def SoundDir (rootPath dir : String) : Prop :=
  ∃ comps, is_result_directory rootPath = false ∧
    good_chain rootPath comps ∧ dir = chain_path rootPath comps

/-- The path was emitted from a directory reached through non-result
directories, with a filename that is not a result file and has a recognized
image extension. -/
def SoundPath (rootPath p : String) : Prop :=
  ∃ comps f, is_result_directory rootPath = false ∧
    good_chain rootPath comps ∧ is_result_file f = false ∧
    has_image_extension f = true ∧
    p = py_join (chain_path rootPath comps) f

/-- The scan-state invariant: everything collected so far is sound. -/
def ScanInv (rootPath : String) (st : ScanSt) : Prop :=
  (∀ p ∈ st.imageFiles, SoundPath rootPath p) ∧
  (∀ pr ∈ st.alreadyProcessed, SoundPath rootPath pr.1) ∧
  (∀ d ∈ st.visited, SoundDir rootPath d)

/-- The invariant carried by a walk result, both on normal return and on the
partial state of an injected failure. -/
def ScanInvE (rootPath : String) : Except ScanSt ScanSt → Prop
  | .ok st => ScanInv rootPath st
  | .error st => ScanInv rootPath st

/-- A plain directory-entry or file name, as `os.walk` yields them: nonempty
and free of the path separator. -/
def plain_name (s : String) : Bool :=
  !s.toList.isEmpty && s.toList.all (fun c => c != '/')

/-- The relative tail contributed by joining plain components onto a base
path: each component contributes one separator and its characters. -/
def comps_tail : List String → List Char
  | [] => []
  | c :: rest => '/' :: c.toList ++ comps_tail rest

mutual
/-- Well-formedness of a directory tree: every entry name — the directory's
own name, each file name, and recursively every name below — is a plain name,
as `os.walk` yields them. -/
def dirWF : FSDir → Bool
  | .node name subdirs files =>
    plain_name name && files.all plain_name && dirsWF subdirs

/-- `dirWF` over a list of subtrees. -/
def dirsWF : List FSDir → Bool
  | [] => true
  | d :: ds => dirWF d && dirsWF ds
end


/-- A descent through non-result directories whose components are plain
names. -/
def SoundDirS (rootPath dir : String) : Prop :=
  ∃ comps, is_result_directory rootPath = false ∧
    (∀ c ∈ comps, plain_name c = true) ∧
    good_chain rootPath comps ∧ dir = chain_path rootPath comps

/-- A path emitted from a directory reached through non-result directories
along plain-name components, with a plain filename that is not a result file
and carries a recognized image extension. -/
def SoundPathS (rootPath p : String) : Prop :=
  ∃ comps f, is_result_directory rootPath = false ∧
    (∀ c ∈ comps, plain_name c = true) ∧ plain_name f = true ∧
    good_chain rootPath comps ∧ is_result_file f = false ∧
    has_image_extension f = true ∧
    p = py_join (chain_path rootPath comps) f

/-- The strengthened scan-state invariant: everything collected so far is
sound with plain-name components. -/
def ScanInvS (rootPath : String) (st : ScanSt) : Prop :=
  (∀ p ∈ st.imageFiles, SoundPathS rootPath p) ∧
  (∀ pr ∈ st.alreadyProcessed, SoundPathS rootPath pr.1) ∧
  (∀ d ∈ st.visited, SoundDirS rootPath d)

/-- The strengthened invariant carried by a walk result. -/
def ScanInvSE (rootPath : String) : Except ScanSt ScanSt → Prop
  | .ok st => ScanInvS rootPath st
  | .error st => ScanInvS rootPath st

/-! ## Helper lemmas: sleeping, waiting, pre-dispatch -/

theorem sleep_exit_cancelled (cfg : WorkerCfg) (now total : ℚ)
    (h : (sleep_with_cancel cfg now total).2 = false) :
    workerCancelled cfg (sleep_with_cancel cfg now total).1 = true := by
  by_cases ht : total ≤ 0
  · simp [sleep_with_cancel, ht] at h
  · cases hc : cfg.cancelAt with
    | none => simp [sleep_with_cancel, ht, hc] at h
    | some c =>
      by_cases h1 : c ≤ now
      · simp [sleep_with_cancel, ht, hc, h1, workerCancelled]
      · by_cases h2 : c ≤ now + total
        · simp [sleep_with_cancel, ht, hc, h1, h2, workerCancelled]
        · simp [sleep_with_cancel, ht, hc, h1, h2] at h

theorem sleep_ok_exit (cfg : WorkerCfg) (now total : ℚ) (ht : 0 < total)
    (h : (sleep_with_cancel cfg now total).2 = true) :
    (sleep_with_cancel cfg now total).1 = now + total := by
  have ht' : ¬ total ≤ 0 := by linarith
  cases hc : cfg.cancelAt with
  | none => simp [sleep_with_cancel, ht', hc]
  | some c =>
    by_cases h1 : c ≤ now
    · simp [sleep_with_cancel, ht', hc, h1] at h
    · by_cases h2 : c ≤ now + total
      · simp [sleep_with_cancel, ht', hc, h1, h2] at h
      · simp [sleep_with_cancel, ht', hc, h1, h2]

/-- Case analysis of `_wait_for_rate_limit`: either it completes normally,
recording the completion time as the new `last_request_time`, at least
`rate_limit_delay` after the previous recorded value; or cancellation cut the
wait, leaving `last_request_time` unchanged with the flag observed set. -/
theorem wait_spec (cfg : WorkerCfg) (st : WorkerSt) :
    ((wait_for_rate_limit cfg st).2.1 = true ∧
      (wait_for_rate_limit cfg st).1.lastRequestTime =
        (wait_for_rate_limit cfg st).1.now ∧
      st.lastRequestTime + cfg.rateLimitDelay ≤
        (wait_for_rate_limit cfg st).1.lastRequestTime ∧
      ((wait_for_rate_limit cfg st).2.2 = [] ∨
        ∃ wt, (wait_for_rate_limit cfg st).2.2 = [.rateWait wt true])) ∨
    ((wait_for_rate_limit cfg st).2.1 = false ∧
      (wait_for_rate_limit cfg st).1.lastRequestTime = st.lastRequestTime ∧
      workerCancelled cfg (wait_for_rate_limit cfg st).1.now = true ∧
      ∃ wt, (wait_for_rate_limit cfg st).2.2 = [.rateWait wt false]) := by
  by_cases hlt : st.now - st.lastRequestTime < cfg.rateLimitDelay
  · have hw : (0:ℚ) < cfg.rateLimitDelay - (st.now - st.lastRequestTime) := by
      linarith
    cases hok :
        (sleep_with_cancel cfg st.now
          (cfg.rateLimitDelay - (st.now - st.lastRequestTime))).2 with
    | false =>
      right
      refine ⟨?_, ?_, ?_, ?_⟩ <;>
        simp [wait_for_rate_limit, hlt, hok,
          sleep_exit_cancelled cfg st.now _ hok]
    | true =>
      left
      have hx := sleep_ok_exit cfg st.now _ hw hok
      refine ⟨?_, ?_, ?_, ?_⟩ <;>
        simp [wait_for_rate_limit, hlt, hok, hx]
      linarith
  · left
    refine ⟨?_, ?_, ?_, ?_⟩ <;> simp [wait_for_rate_limit, hlt]
    linarith

theorem pre_dispatch_first (cfg : WorkerCfg) (idx : ℕ) (st : WorkerSt)
    (h : ¬ 1 < idx) : pre_dispatch cfg idx st = (st, [], true) := by
  simp [pre_dispatch, h]

theorem pre_dispatch_events (cfg : WorkerCfg) (idx : ℕ) (st : WorkerSt) :
    (pre_dispatch cfg idx st).2.1 = [] ∨
      ∃ wt b, (pre_dispatch cfg idx st).2.1 = [Event.rateWait wt b] ∧
        ((pre_dispatch cfg idx st).2.2 = true → b = true) := by
  by_cases hidx : 1 < idx
  · rcases wait_spec cfg st with ⟨h1, _, _, h4 | ⟨wt, h4⟩⟩ | ⟨h1, _, _, wt, h4⟩
    · left
      by_cases hcan : workerCancelled cfg (wait_for_rate_limit cfg st).1.now = true <;>
        simp [pre_dispatch, hidx, h1, h4, hcan]
    · right
      by_cases hcan : workerCancelled cfg (wait_for_rate_limit cfg st).1.now = true <;>
        exact ⟨wt, true, by simp [pre_dispatch, hidx, h1, h4, hcan], fun _ => rfl⟩
    · right
      exact ⟨wt, false, by simp [pre_dispatch, hidx, h1, h4],
        by simp [pre_dispatch, hidx, h1]⟩
  · left; simp [pre_dispatch_first cfg idx st hidx]

theorem pre_dispatch_last_mono (cfg : WorkerCfg) (idx : ℕ) (st : WorkerSt)
    (hd : 0 ≤ cfg.rateLimitDelay) :
    st.lastRequestTime ≤ (pre_dispatch cfg idx st).1.lastRequestTime := by
  by_cases hidx : 1 < idx
  · rcases wait_spec cfg st with ⟨h1, _, h3, _⟩ | ⟨h1, h2, _, _⟩
    · by_cases hcan : workerCancelled cfg (wait_for_rate_limit cfg st).1.now = true <;>
        · simp only [pre_dispatch, hidx, if_pos, h1]
          simp [hcan]
          linarith
    · simp only [pre_dispatch, hidx, if_pos, h1]
      simp [h2]
  · simp [pre_dispatch_first cfg idx st hidx]

theorem pre_dispatch_proceed_last (cfg : WorkerCfg) (idx : ℕ) (st : WorkerSt)
    (hidx : 1 < idx) (h : (pre_dispatch cfg idx st).2.2 = true) :
    (pre_dispatch cfg idx st).1.lastRequestTime =
        (pre_dispatch cfg idx st).1.now ∧
      st.lastRequestTime + cfg.rateLimitDelay ≤
        (pre_dispatch cfg idx st).1.lastRequestTime := by
  rcases wait_spec cfg st with ⟨h1, h2, h3, _⟩ | ⟨h1, _, _, _⟩
  · by_cases hcan : workerCancelled cfg (wait_for_rate_limit cfg st).1.now = true
    · simp [pre_dispatch, hidx, h1, hcan] at h
    · constructor
      · simpa [pre_dispatch, hidx, h1, hcan] using h2
      · simpa [pre_dispatch, hidx, h1, hcan] using h3
  · simp [pre_dispatch, hidx, h1] at h

theorem pre_dispatch_stop_cancelled (cfg : WorkerCfg) (idx : ℕ) (st : WorkerSt)
    (h : (pre_dispatch cfg idx st).2.2 = false) :
    workerCancelled cfg (pre_dispatch cfg idx st).1.now = true := by
  by_cases hidx : 1 < idx
  · rcases wait_spec cfg st with ⟨h1, _, _, _⟩ | ⟨h1, _, h3, _⟩
    · by_cases hcan : workerCancelled cfg (wait_for_rate_limit cfg st).1.now = true
      · simpa [pre_dispatch, hidx, h1, hcan] using hcan
      · simp [pre_dispatch, hidx, h1, hcan] at h
    · simpa [pre_dispatch, hidx, h1] using h3
  · simp [pre_dispatch_first cfg idx st hidx] at h

theorem pre_dispatch_cut (cfg : WorkerCfg) (idx : ℕ) (st : WorkerSt)
    (e : Event) (he : e ∈ (pre_dispatch cfg idx st).2.1)
    (hc : isCutWait e = true) :
    (pre_dispatch cfg idx st).2.2 = false ∧
      workerCancelled cfg (pre_dispatch cfg idx st).1.now = true := by
  by_cases hidx : 1 < idx
  · rcases wait_spec cfg st with ⟨h1, _, _, h4 | ⟨wt, h4⟩⟩ | ⟨h1, _, h3, wt, h4⟩
    · by_cases hcan : workerCancelled cfg (wait_for_rate_limit cfg st).1.now = true <;>
        simp [pre_dispatch, hidx, h1, h4, hcan] at he
    · by_cases hcan : workerCancelled cfg (wait_for_rate_limit cfg st).1.now = true <;>
        · simp [pre_dispatch, hidx, h1, h4, hcan] at he
          simp [he, isCutWait] at hc
    · refine ⟨by simp [pre_dispatch, hidx, h1], ?_⟩
      simpa [pre_dispatch, hidx, h1] using h3
  · simp [pre_dispatch_first cfg idx st hidx] at he

theorem pd_no_dispatch (cfg : WorkerCfg) (idx : ℕ) (st : WorkerSt) :
    dispatches (pre_dispatch cfg idx st).2.1 = [] := by
  rcases pre_dispatch_events cfg idx st with h | ⟨wt, b, h, _⟩ <;> simp [h]

theorem pd_no_backoff (cfg : WorkerCfg) (idx : ℕ) (st : WorkerSt)
    (i n : ℕ) (d : ℚ) (o : Bool) :
    Event.backoff i n d o ∉ (pre_dispatch cfg idx st).2.1 := by
  rcases pre_dispatch_events cfg idx st with h | ⟨wt, b, h, _⟩ <;> simp [h]

theorem pd_proceed_no_cut (cfg : WorkerCfg) (idx : ℕ) (st : WorkerSt)
    (hp : (pre_dispatch cfg idx st).2.2 = true) :
    ∀ e ∈ (pre_dispatch cfg idx st).2.1, isCutWait e = false := by
  rcases pre_dispatch_events cfg idx st with h | ⟨wt, b, h, hb⟩
  · simp [h]
  · simp [h, hb hp, isCutWait]

theorem dispatches_attempt (cfg : WorkerCfg) (total idx : ℕ)
    (it : WorkItemScript) (st : WorkerSt) :
    dispatches (attempt_events cfg total idx it st) =
      [(idx, (pre_dispatch cfg idx st).1.now)] := by
  simp [attempt_events, pd_no_dispatch]

theorem backoffs_attempt (cfg : WorkerCfg) (total idx : ℕ)
    (it : WorkItemScript) (st : WorkerSt) :
    backoffs (attempt_events cfg total idx it st) = [] := by
  rcases pre_dispatch_events cfg idx st with h | ⟨wt, b, h, _⟩ <;>
    simp [attempt_events, h]

theorem attempt_no_backoff (cfg : WorkerCfg) (total idx : ℕ)
    (it : WorkItemScript) (st : WorkerSt) (i n : ℕ) (d : ℚ) (o : Bool) :
    Event.backoff i n d o ∉ attempt_events cfg total idx it st := by
  rcases pre_dispatch_events cfg idx st with h | ⟨wt, b, h, _⟩ <;>
    simp [attempt_events, h]

theorem attempt_no_cut (cfg : WorkerCfg) (total idx : ℕ)
    (it : WorkItemScript) (st : WorkerSt)
    (hp : (pre_dispatch cfg idx st).2.2 = true) :
    ∀ e ∈ attempt_events cfg total idx it st, isCutWait e = false := by
  intro e he
  rcases List.mem_append.1 he with h | h
  · exact pd_proceed_no_cut cfg idx st hp e h
  · simp only [List.mem_cons, List.not_mem_nil, or_false] at h
    rcases h with rfl | rfl <;> rfl

/-! ### Branch equations for `processItem` -/

theorem processItem_stop (cfg : WorkerCfg) (total idx : ℕ) (it : WorkItemScript)
    (st : WorkerSt) (rc : ℕ) (hrc : ¬ rc ≤ maxRetries) :
    processItem cfg total idx it st rc = (st, [], none) := by
  rw [processItem.eq_def]; simp [hrc]

theorem processItem_no_proceed (cfg : WorkerCfg) (total idx : ℕ)
    (it : WorkItemScript) (st : WorkerSt) (rc : ℕ) (hrc : rc ≤ maxRetries)
    (hp : (pre_dispatch cfg idx st).2.2 = false) :
    processItem cfg total idx it st rc =
      ((pre_dispatch cfg idx st).1, (pre_dispatch cfg idx st).2.1, none) := by
  rw [processItem.eq_def]; simp [hrc, hp]

theorem processItem_success (cfg : WorkerCfg) (total idx : ℕ)
    (it : WorkItemScript) (st : WorkerSt) (rc : ℕ) (hrc : rc ≤ maxRetries)
    (hp : (pre_dispatch cfg idx st).2.2 = true)
    (hs : (it.calls rc).outcome = .success) :
    processItem cfg total idx it st rc =
      (post_call_state cfg idx it st rc,
        attempt_events cfg total idx it st ++
          [Event.imageProcessed it.path (out_path cfg it)],
        some (.success (out_path cfg it))) := by
  rw [processItem.eq_def]
  simp [hrc, hp, hs, post_call_state, attempt_events, out_path]

theorem processItem_fail_cancel_in_call (cfg : WorkerCfg) (total idx : ℕ)
    (it : WorkItemScript) (st : WorkerSt) (rc : ℕ) (msg : String)
    (hrc : rc ≤ maxRetries) (hp : (pre_dispatch cfg idx st).2.2 = true)
    (hm : (it.calls rc).outcome = .failure msg)
    (hc1 : workerCancelled cfg (post_call_state cfg idx it st rc).now = true) :
    processItem cfg total idx it st rc =
      (post_call_state cfg idx it st rc, attempt_events cfg total idx it st,
        none) := by
  rw [processItem.eq_def]
  simp only [post_call_state] at hc1
  simp [hrc, hp, hm, hc1, post_call_state, attempt_events]

theorem processItem_fail_cancel_in_backoff (cfg : WorkerCfg) (total idx : ℕ)
    (it : WorkItemScript) (st : WorkerSt) (rc : ℕ) (msg : String)
    (hrc : rc ≤ maxRetries) (hp : (pre_dispatch cfg idx st).2.2 = true)
    (hm : (it.calls rc).outcome = .failure msg)
    (hc1 : workerCancelled cfg (post_call_state cfg idx it st rc).now = false)
    (hc2 : workerCancelled cfg (item_handle cfg idx it st rc msg).1.now = true) :
    processItem cfg total idx it st rc =
      ((item_handle cfg idx it st rc msg).1,
        attempt_events cfg total idx it st ++
          (item_handle cfg idx it st rc msg).2.2,
        none) := by
  rw [processItem.eq_def]
  simp only [post_call_state] at hc1
  simp only [item_handle, post_call_state] at hc2
  simp [hrc, hp, hm, hc1, hc2, post_call_state, attempt_events, item_handle]

theorem processItem_fail_retry (cfg : WorkerCfg) (total idx : ℕ)
    (it : WorkItemScript) (st : WorkerSt) (rc : ℕ) (msg : String)
    (hrc : rc ≤ maxRetries) (hp : (pre_dispatch cfg idx st).2.2 = true)
    (hm : (it.calls rc).outcome = .failure msg)
    (hc1 : workerCancelled cfg (post_call_state cfg idx it st rc).now = false)
    (hc2 : workerCancelled cfg (item_handle cfg idx it st rc msg).1.now = false)
    (hh : (item_handle cfg idx it st rc msg).2.1 = true) :
    processItem cfg total idx it st rc =
      ((processItem cfg total idx it (item_handle cfg idx it st rc msg).1 (rc + 1)).1,
        attempt_events cfg total idx it st ++
          (item_handle cfg idx it st rc msg).2.2 ++
          (processItem cfg total idx it (item_handle cfg idx it st rc msg).1 (rc + 1)).2.1,
        (processItem cfg total idx it (item_handle cfg idx it st rc msg).1 (rc + 1)).2.2) := by
  rw [processItem.eq_def]
  simp only [post_call_state] at hc1
  simp only [item_handle, post_call_state] at hc2 hh
  simp [hrc, hp, hm, hc1, hc2, hh, post_call_state, attempt_events, item_handle]

theorem processItem_fail_perm (cfg : WorkerCfg) (total idx : ℕ)
    (it : WorkItemScript) (st : WorkerSt) (rc : ℕ) (msg : String)
    (hrc : rc ≤ maxRetries) (hp : (pre_dispatch cfg idx st).2.2 = true)
    (hm : (it.calls rc).outcome = .failure msg)
    (hc1 : workerCancelled cfg (post_call_state cfg idx it st rc).now = false)
    (hc2 : workerCancelled cfg (item_handle cfg idx it st rc msg).1.now = false)
    (hh : (item_handle cfg idx it st rc msg).2.1 = false) :
    processItem cfg total idx it st rc =
      ((item_handle cfg idx it st rc msg).1,
        attempt_events cfg total idx it st ++
          (item_handle cfg idx it st rc msg).2.2 ++
          [Event.errorOccurred (failure_message it.path msg) it.path],
        some (.failure msg)) := by
  rw [processItem.eq_def]
  simp only [post_call_state] at hc1
  simp only [item_handle, post_call_state] at hc2 hh
  simp [hrc, hp, hm, hc1, hc2, hh, post_call_state, attempt_events, item_handle]

/-! ### Facts about `handle_rate_limit_error` -/

theorem handle_permanent (cfg : WorkerCfg) (idx : ℕ) (st : WorkerSt) (rc : ℕ)
    (msg p : String) (ht : is_transient_error msg = false) :
    handle_rate_limit_error cfg idx st rc msg p = (st, false, []) := by
  simp [handle_rate_limit_error, ht]

theorem handle_transient (cfg : WorkerCfg) (idx : ℕ) (st : WorkerSt) (rc : ℕ)
    (msg p : String) (ht : is_transient_error msg = true)
    (hrc : rc + 1 ≤ maxRetries) :
    handle_rate_limit_error cfg idx st rc msg p =
      ({ st with now := (sleep_with_cancel cfg st.now (30 * 2 ^ rc)).1 },
        (sleep_with_cancel cfg st.now (30 * 2 ^ rc)).2,
        [Event.backoff idx (rc + 1) (30 * 2 ^ rc)
          (sleep_with_cancel cfg st.now (30 * 2 ^ rc)).2]) := by
  simp [handle_rate_limit_error, ht, hrc]

theorem handle_budget (cfg : WorkerCfg) (idx : ℕ) (st : WorkerSt) (rc : ℕ)
    (msg p : String) (ht : is_transient_error msg = true)
    (hrc : ¬ rc + 1 ≤ maxRetries) :
    handle_rate_limit_error cfg idx st rc msg p =
      (st, false, [Event.errorOccurred budget_message p]) := by
  simp [handle_rate_limit_error, ht, hrc]

theorem handle_last_eq (cfg : WorkerCfg) (idx : ℕ) (st : WorkerSt) (rc : ℕ)
    (msg p : String) :
    (handle_rate_limit_error cfg idx st rc msg p).1.lastRequestTime =
      st.lastRequestTime := by
  by_cases ht : is_transient_error msg = true
  · by_cases hrc : rc + 1 ≤ maxRetries
    · simp [handle_transient cfg idx st rc msg p ht hrc]
    · simp [handle_budget cfg idx st rc msg p ht hrc]
  · simp [handle_permanent cfg idx st rc msg p (by simpa using ht)]

theorem handle_no_dispatch (cfg : WorkerCfg) (idx : ℕ) (st : WorkerSt) (rc : ℕ)
    (msg p : String) :
    dispatches (handle_rate_limit_error cfg idx st rc msg p).2.2 = [] := by
  by_cases ht : is_transient_error msg = true
  · by_cases hrc : rc + 1 ≤ maxRetries
    · simp [handle_transient cfg idx st rc msg p ht hrc]
    · simp [handle_budget cfg idx st rc msg p ht hrc]
  · simp [handle_permanent cfg idx st rc msg p (by simpa using ht)]

theorem handle_backoff_mem (cfg : WorkerCfg) (idx : ℕ) (st : WorkerSt) (rc : ℕ)
    (msg p : String) (i n : ℕ) (d : ℚ) (o : Bool)
    (h : Event.backoff i n d o ∈ (handle_rate_limit_error cfg idx st rc msg p).2.2) :
    d = 30 * 2 ^ (n - 1) ∧ 1 ≤ n ∧ n ≤ maxRetries ∧ i = idx := by
  by_cases ht : is_transient_error msg = true
  · by_cases hrc : rc + 1 ≤ maxRetries
    · rw [handle_transient cfg idx st rc msg p ht hrc] at h
      simp only [List.mem_singleton, Event.backoff.injEq] at h
      obtain ⟨hi, hn, hd, _⟩ := h
      subst hi hd hn
      refine ⟨by simp, by omega, by omega, rfl⟩
    · rw [handle_budget cfg idx st rc msg p ht hrc] at h
      simp at h
  · rw [handle_permanent cfg idx st rc msg p (by simpa using ht)] at h
    simp at h

theorem handle_cut (cfg : WorkerCfg) (idx : ℕ) (st : WorkerSt) (rc : ℕ)
    (msg p : String) (e : Event)
    (he : e ∈ (handle_rate_limit_error cfg idx st rc msg p).2.2)
    (hc : isCutWait e = true) :
    (handle_rate_limit_error cfg idx st rc msg p).2.1 = false ∧
      workerCancelled cfg (handle_rate_limit_error cfg idx st rc msg p).1.now =
        true := by
  by_cases ht : is_transient_error msg = true
  · by_cases hrc : rc + 1 ≤ maxRetries
    · rw [handle_transient cfg idx st rc msg p ht hrc] at he ⊢
      simp only [List.mem_singleton] at he
      subst he
      cases hok : (sleep_with_cancel cfg st.now (30 * 2 ^ rc)).2 with
      | false =>
        exact ⟨rfl, by simpa using sleep_exit_cancelled cfg st.now _ hok⟩
      | true => simp [hok, isCutWait] at hc
    · rw [handle_budget cfg idx st rc msg p ht hrc] at he
      simp only [List.mem_singleton] at he
      subst he
      simp [isCutWait] at hc
  · rw [handle_permanent cfg idx st rc msg p (by simpa using ht)] at he
    simp at he

theorem handle_handled_no_cut (cfg : WorkerCfg) (idx : ℕ) (st : WorkerSt)
    (rc : ℕ) (msg p : String)
    (hh : (handle_rate_limit_error cfg idx st rc msg p).2.1 = true) :
    ∀ e ∈ (handle_rate_limit_error cfg idx st rc msg p).2.2,
      isCutWait e = false := by
  intro e he
  cases hc : isCutWait e with
  | false => rfl
  | true =>
    obtain ⟨hfalse, _⟩ := handle_cut cfg idx st rc msg p e he hc
    rw [hh] at hfalse
    cases hfalse

theorem handle_events_shape (cfg : WorkerCfg) (idx : ℕ) (st : WorkerSt)
    (rc : ℕ) (msg p : String) :
    (handle_rate_limit_error cfg idx st rc msg p).2.2 = [] ∨
      ∃ e, (handle_rate_limit_error cfg idx st rc msg p).2.2 = [e] := by
  by_cases ht : is_transient_error msg = true
  · by_cases hrc : rc + 1 ≤ maxRetries
    · right; exact ⟨_, by rw [handle_transient cfg idx st rc msg p ht hrc]⟩
    · right; exact ⟨_, by rw [handle_budget cfg idx st rc msg p ht hrc]⟩
  · left; rw [handle_permanent cfg idx st rc msg p (by simpa using ht)]

/-! ### Pairwise helpers for the cancellation claim -/

theorem pairwise_cutRel_of_no_cut (l : List Event)
    (h : ∀ a ∈ l, isCutWait a = false) : List.Pairwise cutRel l := by
  induction l with
  | nil => exact List.Pairwise.nil
  | cons a t ih =>
    refine List.Pairwise.cons (fun b _ hc => ?_) (ih fun b hb => h b (by simp [hb]))
    rw [h a (by simp)] at hc
    cases hc

theorem pairwise_cutRel_append (l₁ l₂ : List Event)
    (h1 : ∀ a ∈ l₁, isCutWait a = false) (h2 : List.Pairwise cutRel l₂) :
    List.Pairwise cutRel (l₁ ++ l₂) := by
  rw [List.pairwise_append]
  refine ⟨pairwise_cutRel_of_no_cut l₁ h1, h2, fun a ha b _ hc => ?_⟩
  rw [h1 a ha] at hc
  cases hc

/-! ### The pacing invariant of `processItem` -/

theorem paced_single (cfg : WorkerCfg) (idx : ℕ) (st : WorkerSt)
    (hd : 0 ≤ cfg.rateLimitDelay)
    (hp : (pre_dispatch cfg idx st).2.2 = true)
    (resSt : WorkerSt) (resEv : List Event)
    (hlast : resSt.lastRequestTime = (pre_dispatch cfg idx st).1.lastRequestTime)
    (hdisp : dispatches resEv = [(idx, (pre_dispatch cfg idx st).1.now)]) :
    st.lastRequestTime ≤ resSt.lastRequestTime ∧
    (∀ d ∈ dispatches resEv, d.1 = idx) ∧
    List.Chain' (pacedRel cfg.rateLimitDelay) (dispatches resEv) ∧
    (2 ≤ idx → ∀ a ∈ (dispatches resEv).head?,
      st.lastRequestTime + cfg.rateLimitDelay ≤ a.2) ∧
    (2 ≤ idx → ∀ a ∈ (dispatches resEv).getLast?,
      a.2 ≤ resSt.lastRequestTime) := by
  refine ⟨?_, ?_, ?_, ?_, ?_⟩
  · rw [hlast]; exact pre_dispatch_last_mono cfg idx st hd
  · simp [hdisp]
  · simp [hdisp]
  · intro h2 a ha
    obtain ⟨heq, hge⟩ :=
      pre_dispatch_proceed_last cfg idx st (by omega) hp
    rw [hdisp] at ha
    simp only [List.head?_cons, Option.mem_def, Option.some.injEq] at ha
    subst ha
    simpa [← heq] using hge
  · intro h2 a ha
    obtain ⟨heq, _⟩ :=
      pre_dispatch_proceed_last cfg idx st (by omega) hp
    rw [hdisp] at ha
    simp only [List.getLast?_singleton, Option.mem_def, Option.some.injEq] at ha
    subst ha
    simp [hlast, ← heq]

theorem paced_empty (cfg : WorkerCfg) (idx : ℕ) (st : WorkerSt)
    (resSt : WorkerSt) (resEv : List Event)
    (hlast : st.lastRequestTime ≤ resSt.lastRequestTime)
    (hdisp : dispatches resEv = []) :
    st.lastRequestTime ≤ resSt.lastRequestTime ∧
    (∀ d ∈ dispatches resEv, d.1 = idx) ∧
    List.Chain' (pacedRel cfg.rateLimitDelay) (dispatches resEv) ∧
    (2 ≤ idx → ∀ a ∈ (dispatches resEv).head?,
      st.lastRequestTime + cfg.rateLimitDelay ≤ a.2) ∧
    (2 ≤ idx → ∀ a ∈ (dispatches resEv).getLast?,
      a.2 ≤ resSt.lastRequestTime) := by
  simp [hdisp, hlast]

theorem processItem_paced (cfg : WorkerCfg) (total idx : ℕ)
    (it : WorkItemScript) (hd : 0 ≤ cfg.rateLimitDelay) :
    ∀ (fuel : ℕ) (st : WorkerSt) (rc : ℕ), maxRetries + 1 - rc ≤ fuel →
      st.lastRequestTime ≤
          (processItem cfg total idx it st rc).1.lastRequestTime ∧
      (∀ d ∈ dispatches (processItem cfg total idx it st rc).2.1, d.1 = idx) ∧
      List.Chain' (pacedRel cfg.rateLimitDelay)
        (dispatches (processItem cfg total idx it st rc).2.1) ∧
      (2 ≤ idx →
        ∀ a ∈ (dispatches (processItem cfg total idx it st rc).2.1).head?,
          st.lastRequestTime + cfg.rateLimitDelay ≤ a.2) ∧
      (2 ≤ idx →
        ∀ a ∈ (dispatches (processItem cfg total idx it st rc).2.1).getLast?,
          a.2 ≤ (processItem cfg total idx it st rc).1.lastRequestTime) := by
  intro fuel
  induction fuel with
  | zero =>
    intro st rc hf
    have hrc : ¬ rc ≤ maxRetries := by omega
    rw [processItem_stop cfg total idx it st rc hrc]
    exact paced_empty cfg idx st st [] le_rfl rfl
  | succ n ih =>
    intro st rc hf
    by_cases hrc : rc ≤ maxRetries
    · by_cases hp : (pre_dispatch cfg idx st).2.2 = true
      · cases hout : (it.calls rc).outcome with
        | success =>
          rw [processItem_success cfg total idx it st rc hrc hp hout]
          exact paced_single cfg idx st hd hp _ _ rfl
            (by simp [dispatches_attempt])
        | failure msg =>
          by_cases hc1 :
              workerCancelled cfg (post_call_state cfg idx it st rc).now = true
          · rw [processItem_fail_cancel_in_call cfg total idx it st rc msg hrc
              hp hout hc1]
            exact paced_single cfg idx st hd hp _ _ rfl (dispatches_attempt ..)
          · have hc1' :
                workerCancelled cfg (post_call_state cfg idx it st rc).now =
                  false := by simpa using hc1
            by_cases hc2 :
                workerCancelled cfg (item_handle cfg idx it st rc msg).1.now =
                  true
            · rw [processItem_fail_cancel_in_backoff cfg total idx it st rc msg
                hrc hp hout hc1' hc2]
              refine paced_single cfg idx st hd hp _ _ ?_ ?_
              · simpa [item_handle, post_call_state] using
                  handle_last_eq cfg idx (post_call_state cfg idx it st rc) rc
                    msg it.path
              · simp [dispatches_attempt, item_handle, handle_no_dispatch]
            · have hc2' :
                  workerCancelled cfg
                      (item_handle cfg idx it st rc msg).1.now = false := by
                simpa using hc2
              by_cases hh : (item_handle cfg idx it st rc msg).2.1 = true
              · rw [processItem_fail_retry cfg total idx it st rc msg hrc hp
                  hout hc1' hc2' hh]
                obtain ⟨ih1, ih2, ih3, ih4, ih5⟩ :=
                  ih (item_handle cfg idx it st rc msg).1 (rc + 1) (by omega)
                have hhl :
                    (item_handle cfg idx it st rc msg).1.lastRequestTime =
                      (pre_dispatch cfg idx st).1.lastRequestTime := by
                  simpa [item_handle, post_call_state] using
                    handle_last_eq cfg idx (post_call_state cfg idx it st rc)
                      rc msg it.path
                have hDisp :
                    dispatches
                        (attempt_events cfg total idx it st ++
                          (item_handle cfg idx it st rc msg).2.2 ++
                          (processItem cfg total idx it
                            (item_handle cfg idx it st rc msg).1 (rc + 1)).2.1) =
                      (idx, (pre_dispatch cfg idx st).1.now) ::
                        dispatches
                          (processItem cfg total idx it
                            (item_handle cfg idx it st rc msg).1 (rc + 1)).2.1 := by
                  simp [dispatches_attempt, item_handle, handle_no_dispatch]
                refine ⟨?_, ?_, ?_, ?_, ?_⟩
                · calc st.lastRequestTime
                      ≤ (pre_dispatch cfg idx st).1.lastRequestTime :=
                        pre_dispatch_last_mono cfg idx st hd
                    _ = (item_handle cfg idx it st rc msg).1.lastRequestTime :=
                        hhl.symm
                    _ ≤ _ := ih1
                · simp only [hDisp]
                  intro d hdm
                  rcases List.mem_cons.1 hdm with rfl | hdm
                  · rfl
                  · exact ih2 d hdm
                · rw [hDisp, List.chain'_cons']
                  refine ⟨?_, ih3⟩
                  intro b hb h2
                  have hb' := ih4 h2 b hb
                  obtain ⟨heq, _⟩ :=
                    pre_dispatch_proceed_last cfg idx st (by omega) hp
                  calc (pre_dispatch cfg idx st).1.now + cfg.rateLimitDelay
                      = (pre_dispatch cfg idx st).1.lastRequestTime +
                          cfg.rateLimitDelay := by rw [heq]
                    _ = (item_handle cfg idx it st rc msg).1.lastRequestTime +
                          cfg.rateLimitDelay := by rw [hhl]
                    _ ≤ b.2 := hb'
                · intro h2 a ha
                  rw [hDisp, List.head?_cons] at ha
                  simp only [Option.mem_def, Option.some.injEq] at ha
                  subst ha
                  obtain ⟨heq, hge⟩ :=
                    pre_dispatch_proceed_last cfg idx st (by omega) hp
                  simpa [← heq] using hge
                · intro h2 a ha
                  rw [hDisp] at ha
                  cases hrec :
                      dispatches
                        (processItem cfg total idx it
                          (item_handle cfg idx it st rc msg).1 (rc + 1)).2.1 with
                  | nil =>
                    rw [hrec] at ha
                    simp only [List.getLast?_singleton, Option.mem_def,
                      Option.some.injEq] at ha
                    subst ha
                    obtain ⟨heq, _⟩ :=
                      pre_dispatch_proceed_last cfg idx st (by omega) hp
                    calc (pre_dispatch cfg idx st).1.now
                        = (pre_dispatch cfg idx st).1.lastRequestTime := heq.symm
                      _ = (item_handle cfg idx it st rc msg).1.lastRequestTime :=
                          hhl.symm
                      _ ≤ _ := ih1
                  | cons x xs =>
                    rw [hrec] at ha
                    rw [List.getLast?_cons_cons] at ha
                    refine ih5 h2 a ?_
                    rw [hrec]
                    cases xs with
                    | nil => simpa using ha
                    | cons y ys => simpa [List.getLast?_cons_cons] using ha
              · have hh' : (item_handle cfg idx it st rc msg).2.1 = false := by
                  simpa using hh
                rw [processItem_fail_perm cfg total idx it st rc msg hrc hp hout
                  hc1' hc2' hh']
                refine paced_single cfg idx st hd hp _ _ ?_ ?_
                · simpa [item_handle, post_call_state] using
                    handle_last_eq cfg idx (post_call_state cfg idx it st rc) rc
                      msg it.path
                · simp [dispatches_attempt, item_handle, handle_no_dispatch]
      · have hp' : (pre_dispatch cfg idx st).2.2 = false := by simpa using hp
        rw [processItem_no_proceed cfg total idx it st rc hrc hp']
        exact paced_empty cfg idx st _ _ (pre_dispatch_last_mono cfg idx st hd)
          (pd_no_dispatch cfg idx st)
    · rw [processItem_stop cfg total idx it st rc hrc]
      exact paced_empty cfg idx st st [] le_rfl rfl

theorem processItem_events (cfg : WorkerCfg) (total idx : ℕ)
    (it : WorkItemScript) :
    ∀ (fuel : ℕ) (st : WorkerSt) (rc : ℕ), maxRetries + 1 - rc ≤ fuel →
      (∀ i n d o,
        Event.backoff i n d o ∈ (processItem cfg total idx it st rc).2.1 →
          d = 30 * 2 ^ (n - 1) ∧ 1 ≤ n ∧ n ≤ maxRetries ∧ i = idx) ∧
      List.Pairwise cutRel (processItem cfg total idx it st rc).2.1 ∧
      ((∃ e ∈ (processItem cfg total idx it st rc).2.1, isCutWait e = true) →
        workerCancelled cfg (processItem cfg total idx it st rc).1.now = true) ∧
      (∀ v, (processItem cfg total idx it st rc).2.2 = some v →
        ∃ t, Event.dispatch idx it.path t ∈
          (processItem cfg total idx it st rc).2.1) := by
  intro fuel
  induction fuel with
  | zero =>
    intro st rc hf
    have hrc : ¬ rc ≤ maxRetries := by omega
    rw [processItem_stop cfg total idx it st rc hrc]
    simp
  | succ n ih =>
    intro st rc hf
    by_cases hrc : rc ≤ maxRetries
    · by_cases hp : (pre_dispatch cfg idx st).2.2 = true
      · have hNoCutAtt := attempt_no_cut cfg total idx it st hp
        cases hout : (it.calls rc).outcome with
        | success =>
          rw [processItem_success cfg total idx it st rc hrc hp hout]
          refine ⟨?_, ?_, ?_, ?_⟩
          · intro i m d o hmem
            rcases List.mem_append.1 hmem with h | h
            · exact absurd h (attempt_no_backoff cfg total idx it st i m d o)
            · simp at h
          · refine pairwise_cutRel_of_no_cut _ (fun a ha => ?_)
            rcases List.mem_append.1 ha with h | h
            · exact hNoCutAtt a h
            · simp only [List.mem_singleton] at h; subst h; rfl
          · rintro ⟨e, he, hc⟩
            rcases List.mem_append.1 he with h | h
            · rw [hNoCutAtt e h] at hc; cases hc
            · simp only [List.mem_singleton] at h; subst h; cases hc
          · intro v _
            exact ⟨(pre_dispatch cfg idx st).1.now, by simp [attempt_events]⟩
        | failure msg =>
          by_cases hc1 :
              workerCancelled cfg (post_call_state cfg idx it st rc).now = true
          · rw [processItem_fail_cancel_in_call cfg total idx it st rc msg hrc
              hp hout hc1]
            refine ⟨?_, pairwise_cutRel_of_no_cut _ hNoCutAtt, ?_, ?_⟩
            · intro i m d o hmem
              exact absurd hmem (attempt_no_backoff cfg total idx it st i m d o)
            · rintro ⟨e, he, hc⟩
              rw [hNoCutAtt e he] at hc; cases hc
            · intro v hv; cases hv
          · have hc1' :
                workerCancelled cfg (post_call_state cfg idx it st rc).now =
                  false := by simpa using hc1
            by_cases hc2 :
                workerCancelled cfg (item_handle cfg idx it st rc msg).1.now =
                  true
            · rw [processItem_fail_cancel_in_backoff cfg total idx it st rc msg
                hrc hp hout hc1' hc2]
              refine ⟨?_, ?_, ?_, ?_⟩
              · intro i m d o hmem
                rcases List.mem_append.1 hmem with h | h
                · exact absurd h (attempt_no_backoff cfg total idx it st i m d o)
                · exact handle_backoff_mem cfg idx _ rc msg it.path i m d o h
              · refine pairwise_cutRel_append _ _ hNoCutAtt ?_
                rcases handle_events_shape cfg idx
                    (post_call_state cfg idx it st rc) rc msg it.path with
                  h | ⟨e, h⟩
                · rw [item_handle, h]; exact List.Pairwise.nil
                · rw [item_handle, h]; exact List.pairwise_singleton _ _
              · intro _; exact hc2
              · intro v hv; cases hv
            · have hc2' :
                  workerCancelled cfg
                      (item_handle cfg idx it st rc msg).1.now = false := by
                simpa using hc2
              have hNoCutHandle :
                  ∀ e ∈ (item_handle cfg idx it st rc msg).2.2,
                    isCutWait e = false := by
                intro e he
                cases hcw : isCutWait e with
                | false => rfl
                | true =>
                  obtain ⟨_, hcan⟩ := handle_cut cfg idx
                    (post_call_state cfg idx it st rc) rc msg it.path e
                    (by simpa [item_handle] using he) hcw
                  rw [item_handle] at hc2'
                  rw [hc2'] at hcan
                  cases hcan
              by_cases hh : (item_handle cfg idx it st rc msg).2.1 = true
              · rw [processItem_fail_retry cfg total idx it st rc msg hrc hp
                  hout hc1' hc2' hh]
                obtain ⟨ih1, ih2, ih3, ih4⟩ :=
                  ih (item_handle cfg idx it st rc msg).1 (rc + 1) (by omega)
                refine ⟨?_, ?_, ?_, ?_⟩
                · intro i m d o hmem
                  rcases List.mem_append.1 hmem with h | h
                  · rcases List.mem_append.1 h with h' | h'
                    · exact absurd h' (attempt_no_backoff cfg total idx it st i m d o)
                    · exact handle_backoff_mem cfg idx _ rc msg it.path i m d o h'
                  · exact ih1 i m d o h
                · rw [List.append_assoc]
                  refine pairwise_cutRel_append _ _ ?_ ?_
                  · exact hNoCutAtt
                  · refine pairwise_cutRel_append _ _ hNoCutHandle ih2
                · rintro ⟨e, he, hc⟩
                  rcases List.mem_append.1 he with h | h
                  · rcases List.mem_append.1 h with h' | h'
                    · rw [hNoCutAtt e h'] at hc; cases hc
                    · rw [hNoCutHandle e h'] at hc; cases hc
                  · exact ih3 ⟨e, h, hc⟩
                · intro v hv
                  obtain ⟨t, ht⟩ := ih4 v hv
                  exact ⟨t, by simp [ht]⟩
              · have hh' : (item_handle cfg idx it st rc msg).2.1 = false := by
                  simpa using hh
                rw [processItem_fail_perm cfg total idx it st rc msg hrc hp hout
                  hc1' hc2' hh']
                refine ⟨?_, ?_, ?_, ?_⟩
                · intro i m d o hmem
                  rcases List.mem_append.1 hmem with h | h
                  · rcases List.mem_append.1 h with h' | h'
                    · exact absurd h' (attempt_no_backoff cfg total idx it st i m d o)
                    · exact handle_backoff_mem cfg idx _ rc msg it.path i m d o h'
                  · simp at h
                · rw [List.append_assoc]
                  refine pairwise_cutRel_append _ _ hNoCutAtt ?_
                  refine pairwise_cutRel_append _ _ hNoCutHandle ?_
                  exact List.pairwise_singleton _ _
                · rintro ⟨e, he, hc⟩
                  rcases List.mem_append.1 he with h | h
                  · rcases List.mem_append.1 h with h' | h'
                    · rw [hNoCutAtt e h'] at hc; cases hc
                    · rw [hNoCutHandle e h'] at hc; cases hc
                  · simp only [List.mem_singleton] at h; subst h; cases hc
                · intro v _
                  exact ⟨(pre_dispatch cfg idx st).1.now,
                    by simp [attempt_events]⟩
      · have hp' : (pre_dispatch cfg idx st).2.2 = false := by simpa using hp
        rw [processItem_no_proceed cfg total idx it st rc hrc hp']
        refine ⟨?_, ?_, ?_, ?_⟩
        · intro i m d o hmem
          exact absurd hmem (pd_no_backoff cfg idx st i m d o)
        · rcases pre_dispatch_events cfg idx st with h | ⟨wt, b, h, _⟩
          · rw [h]; exact List.Pairwise.nil
          · rw [h]; exact List.pairwise_singleton _ _
        · intro _
          exact pre_dispatch_stop_cancelled cfg idx st hp'
        · intro v hv; cases hv
    · rw [processItem_stop cfg total idx it st rc hrc]
      simp

/-! ### The outer loop: equations and invariants -/

theorem runItems_nil (cfg : WorkerCfg) (total idx : ℕ) (st : WorkerSt)
    (results : List (String × ItemResult)) :
    runItems cfg total [] idx st results = (st, [], results) := rfl

theorem runItems_cancelled (cfg : WorkerCfg) (total idx : ℕ)
    (it : WorkItemScript) (rest : List WorkItemScript) (st : WorkerSt)
    (results : List (String × ItemResult))
    (hc : workerCancelled cfg st.now = true) :
    runItems cfg total (it :: rest) idx st results = (st, [], results) := by
  simp [runItems, hc]

theorem runItems_cons_stop (cfg : WorkerCfg) (total idx : ℕ)
    (it : WorkItemScript) (rest : List WorkItemScript) (st : WorkerSt)
    (results : List (String × ItemResult))
    (hc : workerCancelled cfg st.now = false)
    (hc2 : workerCancelled cfg (processItem cfg total idx it st 0).1.now =
      true) :
    runItems cfg total (it :: rest) idx st results =
      ((processItem cfg total idx it st 0).1,
        (processItem cfg total idx it st 0).2.1,
        record_result results it.path (processItem cfg total idx it st 0).2.2) := by
  simp [runItems, hc, hc2]

theorem runItems_cons_go (cfg : WorkerCfg) (total idx : ℕ)
    (it : WorkItemScript) (rest : List WorkItemScript) (st : WorkerSt)
    (results : List (String × ItemResult))
    (hc : workerCancelled cfg st.now = false)
    (hc2 : workerCancelled cfg (processItem cfg total idx it st 0).1.now =
      false) :
    runItems cfg total (it :: rest) idx st results =
      ((runItems cfg total rest (idx + 1) (processItem cfg total idx it st 0).1
          (record_result results it.path
            (processItem cfg total idx it st 0).2.2)).1,
        (processItem cfg total idx it st 0).2.1 ++
          (runItems cfg total rest (idx + 1)
            (processItem cfg total idx it st 0).1
            (record_result results it.path
              (processItem cfg total idx it st 0).2.2)).2.1,
        (runItems cfg total rest (idx + 1) (processItem cfg total idx it st 0).1
          (record_result results it.path
            (processItem cfg total idx it st 0).2.2)).2.2) := by
  simp [runItems, hc, hc2]

theorem record_result_mem (results : List (String × ItemResult)) (path : String)
    (out : Option ItemResult) (pr : String × ItemResult)
    (h : pr ∈ record_result results path out) :
    pr ∈ results ∨ ∃ v, out = some v ∧ pr = (path, v) := by
  cases out with
  | none => exact Or.inl h
  | some v =>
    by_cases hany : results.any (fun p => p.1 = path) = true
    · simp only [record_result, hany, if_pos] at h
      obtain ⟨q, hq, hfq⟩ := List.mem_map.1 h
      by_cases hqp : q.1 = path
      · right; exact ⟨v, rfl, by simp [hqp] at hfq; exact hfq.symm⟩
      · left
        rw [if_neg hqp] at hfq
        exact hfq ▸ hq
    · simp only [record_result, hany, if_neg, Bool.not_eq_true] at h
      rcases List.mem_append.1 h with h | h
      · exact Or.inl h
      · right; exact ⟨v, rfl, by simpa using h⟩

theorem runItems_paced (cfg : WorkerCfg) (total : ℕ)
    (hd : 0 ≤ cfg.rateLimitDelay) :
    ∀ (items : List WorkItemScript) (idx : ℕ) (st : WorkerSt)
      (results : List (String × ItemResult)), 1 ≤ idx →
      st.lastRequestTime ≤
          (runItems cfg total items idx st results).1.lastRequestTime ∧
      (∀ d ∈ dispatches (runItems cfg total items idx st results).2.1,
        idx ≤ d.1) ∧
      List.Chain' (pacedRel cfg.rateLimitDelay)
        (dispatches (runItems cfg total items idx st results).2.1) ∧
      (2 ≤ idx →
        ∀ a ∈ (dispatches (runItems cfg total items idx st results).2.1).head?,
          st.lastRequestTime + cfg.rateLimitDelay ≤ a.2) ∧
      (∀ a ∈ (dispatches (runItems cfg total items idx st results).2.1).getLast?,
        2 ≤ a.1 →
          a.2 ≤ (runItems cfg total items idx st results).1.lastRequestTime) := by
  intro items
  induction items with
  | nil =>
    intro idx st results _
    rw [runItems_nil]
    simp
  | cons it rest ih =>
    intro idx st results hidx
    by_cases hcan : workerCancelled cfg st.now = true
    · rw [runItems_cancelled cfg total idx it rest st results hcan]
      simp
    · have hcan' : workerCancelled cfg st.now = false := by simpa using hcan
      obtain ⟨p1, p2, p3, p4, p5⟩ :=
        processItem_paced cfg total idx it hd (maxRetries + 1) st 0 (by omega)
      by_cases hc2 :
          workerCancelled cfg (processItem cfg total idx it st 0).1.now = true
      · rw [runItems_cons_stop cfg total idx it rest st results hcan' hc2]
        refine ⟨p1, fun d hdm => le_of_eq (p2 d hdm).symm, p3, p4, ?_⟩
        intro a ha h2a
        have hmem := List.mem_of_mem_getLast? ha
        have : a.1 = idx := p2 a hmem
        exact p5 (by omega) a ha
      · have hc2' :
            workerCancelled cfg (processItem cfg total idx it st 0).1.now =
              false := by simpa using hc2
        rw [runItems_cons_go cfg total idx it rest st results hcan' hc2']
        obtain ⟨q1, q2, q3, q4, q5⟩ :=
          ih (idx + 1) (processItem cfg total idx it st 0).1
            (record_result results it.path
              (processItem cfg total idx it st 0).2.2) (by omega)
        refine ⟨le_trans p1 q1, ?_, ?_, ?_, ?_⟩
        · intro d hdm
          rw [dispatches_append] at hdm
          rcases List.mem_append.1 hdm with h | h
          · exact le_of_eq (p2 d h).symm
          · exact le_trans (by omega) (q2 d h)
        · rw [dispatches_append, List.chain'_append]
          refine ⟨p3, q3, ?_⟩
          intro x hx y hy h2x
          have hxi : x.1 = idx := p2 x (List.mem_of_mem_getLast? hx)
          have hx2 : x.2 ≤ (processItem cfg total idx it st 0).1.lastRequestTime :=
            p5 (by omega) x hx
          have hy2 := q4 (by omega) y hy
          linarith
        · intro h2 a ha
          rw [dispatches_append, List.head?_append] at ha
          cases hD1 : (dispatches (processItem cfg total idx it st 0).2.1).head? with
          | some b =>
            rw [hD1] at ha
            simp only [Option.or_some, Option.mem_def, Option.some.injEq] at ha
            subst ha
            exact p4 h2 b hD1
          | none =>
            rw [hD1] at ha
            simp only [Option.or] at ha
            have := q4 (by omega) a ha
            linarith
        · intro a ha h2a
          rw [dispatches_append, List.getLast?_append] at ha
          cases hD2 :
              (dispatches (runItems cfg total rest (idx + 1)
                (processItem cfg total idx it st 0).1
                (record_result results it.path
                  (processItem cfg total idx it st 0).2.2)).2.1).getLast? with
          | some b =>
            rw [hD2] at ha
            simp only [Option.or_some, Option.mem_def, Option.some.injEq] at ha
            subst ha
            exact q5 b hD2 h2a
          | none =>
            rw [hD2] at ha
            simp only [Option.or] at ha
            have hxi : a.1 = idx := p2 a (List.mem_of_mem_getLast? ha)
            have := p5 (by omega) a ha
            linarith [q1]

theorem runItems_events (cfg : WorkerCfg) (total : ℕ) :
    ∀ (items : List WorkItemScript) (idx : ℕ) (st : WorkerSt)
      (results : List (String × ItemResult)),
      (∀ i n d o,
        Event.backoff i n d o ∈ (runItems cfg total items idx st results).2.1 →
          d = 30 * 2 ^ (n - 1) ∧ 1 ≤ n ∧ n ≤ maxRetries) ∧
      List.Pairwise cutRel (runItems cfg total items idx st results).2.1 ∧
      (∀ pr ∈ (runItems cfg total items idx st results).2.2,
        pr ∈ results ∨ ∃ i t, Event.dispatch i pr.1 t ∈
          (runItems cfg total items idx st results).2.1) := by
  intro items
  induction items with
  | nil =>
    intro idx st results
    rw [runItems_nil]
    simp
  | cons it rest ih =>
    intro idx st results
    by_cases hcan : workerCancelled cfg st.now = true
    · rw [runItems_cancelled cfg total idx it rest st results hcan]
      simp
    · have hcan' : workerCancelled cfg st.now = false := by simpa using hcan
      obtain ⟨e1, e2, e3, e4⟩ :=
        processItem_events cfg total idx it (maxRetries + 1) st 0 (by omega)
      by_cases hc2 :
          workerCancelled cfg (processItem cfg total idx it st 0).1.now = true
      · rw [runItems_cons_stop cfg total idx it rest st results hcan' hc2]
        refine ⟨fun i n d o h => ⟨(e1 i n d o h).1, (e1 i n d o h).2.1,
          (e1 i n d o h).2.2.1⟩, e2, ?_⟩
        intro pr hpr
        rcases record_result_mem results it.path
            (processItem cfg total idx it st 0).2.2 pr hpr with h | ⟨v, hv, rfl⟩
        · exact Or.inl h
        · obtain ⟨t, ht⟩ := e4 v hv
          exact Or.inr ⟨idx, t, ht⟩
      · have hc2' :
            workerCancelled cfg (processItem cfg total idx it st 0).1.now =
              false := by simpa using hc2
        rw [runItems_cons_go cfg total idx it rest st results hcan' hc2']
        obtain ⟨q1, q2, q3⟩ :=
          ih (idx + 1) (processItem cfg total idx it st 0).1
            (record_result results it.path
              (processItem cfg total idx it st 0).2.2)
        have hNoCut : ∀ e ∈ (processItem cfg total idx it st 0).2.1,
            isCutWait e = false := by
          intro e he
          cases hcw : isCutWait e with
          | false => rfl
          | true =>
            have := e3 ⟨e, he, hcw⟩
            rw [hc2'] at this
            cases this
        refine ⟨?_, pairwise_cutRel_append _ _ hNoCut q2, ?_⟩
        · intro i n d o h
          rcases List.mem_append.1 h with h | h
          · exact ⟨(e1 i n d o h).1, (e1 i n d o h).2.1, (e1 i n d o h).2.2.1⟩
          · exact q1 i n d o h
        · intro pr hpr
          rcases q3 pr hpr with h | ⟨i, t, ht⟩
          · rcases record_result_mem results it.path
                (processItem cfg total idx it st 0).2.2 pr h with h' | ⟨v, hv, rfl⟩
            · exact Or.inl h'
            · obtain ⟨t, ht⟩ := e4 v hv
              exact Or.inr ⟨idx, t, List.mem_append_left _ ht⟩
          · exact Or.inr ⟨i, t, List.mem_append_right _ ht⟩

/-! ### Scenario lemmas: scripted single-item runs -/

theorem workerCancelled_none (cfg : WorkerCfg) (h : cfg.cancelAt = none)
    (t : ℚ) : workerCancelled cfg t = false := by
  simp [workerCancelled, h]

theorem sleep_none (cfg : WorkerCfg) (h : cfg.cancelAt = none) (now total : ℚ)
    (ht : ¬ total ≤ 0) : sleep_with_cancel cfg now total = (now + total, true) := by
  simp [sleep_with_cancel, h, ht]

theorem failure_message_ne_budget (a b : String) :
    failure_message a b ≠ budget_message := by
  intro h
  have hdata := congrArg String.data h
  simp only [failure_message, budget_message, String.data_append] at hdata
  have : ('F' :: "ailed to process ".data) ++
      ((py_basename a).data ++ (": ".data ++ b.data)) =
      ('R' :: ("ate limit exceeded after ".data ++
        ((toString maxRetries).data ++
          " retries. Please wait before trying again.".data))) := by
    simpa using hdata
  exact absurd (List.head_eq_of_cons_eq this) (by decide)

theorem count_budget_append (l₁ l₂ : List Event) :
    count_budget (l₁ ++ l₂) = count_budget l₁ + count_budget l₂ := by
  simp [count_budget, List.filter_append]

theorem count_budget_attempt (cfg : WorkerCfg) (total idx : ℕ)
    (it : WorkItemScript) (st : WorkerSt) :
    count_budget (attempt_events cfg total idx it st) = 0 := by
  rcases pre_dispatch_events cfg idx st with h | ⟨wt, b, h, _⟩ <;>
    simp [attempt_events, h, count_budget, is_budget_error]

theorem allTransient_spec (cfg : WorkerCfg) (hnone : cfg.cancelAt = none)
    (total : ℕ) (p : String) (dur : ℕ → ℚ) (msg : ℕ → String)
    (hmsg : ∀ k, is_transient_error (msg k) = true) :
    ∀ (fuel : ℕ) (st : WorkerSt) (rc : ℕ),
      maxRetries + 1 - rc ≤ fuel → rc ≤ maxRetries →
      backoffs (processItem cfg total 1
          ⟨p, fun k => ⟨dur k, .failure (msg k)⟩⟩ st rc).2.1 =
        (List.range' (rc + 1) (maxRetries - rc)).map
          (fun n => (n, ((30 * 2 ^ (n - 1) : ℚ)), true)) ∧
      count_budget (processItem cfg total 1
          ⟨p, fun k => ⟨dur k, .failure (msg k)⟩⟩ st rc).2.1 = 1 ∧
      (processItem cfg total 1
          ⟨p, fun k => ⟨dur k, .failure (msg k)⟩⟩ st rc).2.2 =
        some (.failure (msg maxRetries)) := by
  intro fuel
  induction fuel with
  | zero => intro st rc hf hrc; omega
  | succ n ih =>
    intro st rc hf hrc
    have hpd := pre_dispatch_first cfg 1 st (by omega)
    have hp : (pre_dispatch cfg 1 st).2.2 = true := by rw [hpd]
    have hout : ((⟨p, fun k => ⟨dur k, .failure (msg k)⟩⟩ :
        WorkItemScript).calls rc).outcome = .failure (msg rc) := rfl
    have hc1 : workerCancelled cfg (post_call_state cfg 1
        ⟨p, fun k => ⟨dur k, .failure (msg k)⟩⟩ st rc).now = false :=
      workerCancelled_none cfg hnone _
    by_cases hlast : rc = maxRetries
    · subst hlast
      have hhandle : item_handle cfg 1 ⟨p, fun k => ⟨dur k, .failure (msg k)⟩⟩
          st maxRetries (msg maxRetries) =
          (post_call_state cfg 1 ⟨p, fun k => ⟨dur k, .failure (msg k)⟩⟩ st
            maxRetries, false, [Event.errorOccurred budget_message p]) := by
        rw [item_handle]
        exact handle_budget cfg 1 _ maxRetries (msg maxRetries) _
          (hmsg maxRetries) (by omega)
      have hc2 : workerCancelled cfg (item_handle cfg 1
          ⟨p, fun k => ⟨dur k, .failure (msg k)⟩⟩ st maxRetries
          (msg maxRetries)).1.now = false := workerCancelled_none cfg hnone _
      have hh : (item_handle cfg 1 ⟨p, fun k => ⟨dur k, .failure (msg k)⟩⟩ st
          maxRetries (msg maxRetries)).2.1 = false := by rw [hhandle]
      rw [processItem_fail_perm cfg total 1 _ st maxRetries (msg maxRetries)
        le_rfl hp hout hc1 hc2 hh]
      refine ⟨?_, ?_, rfl⟩
      · simp [hhandle, backoffs_attempt]
      · rw [count_budget_append, count_budget_append, count_budget_attempt,
          hhandle]
        simp [count_budget, is_budget_error,
          beq_eq_false_iff_ne.2 (failure_message_ne_budget p (msg maxRetries))]
    · have hrc2 : rc + 1 ≤ maxRetries := by omega
      have hpos0 : (0 : ℚ) < 30 * 2 ^ rc := by positivity
      have hpos : ¬ (30 * 2 ^ rc : ℚ) ≤ 0 := by linarith
      have hhandle : item_handle cfg 1 ⟨p, fun k => ⟨dur k, .failure (msg k)⟩⟩
          st rc (msg rc) =
          ({ post_call_state cfg 1 ⟨p, fun k => ⟨dur k, .failure (msg k)⟩⟩ st rc
              with now := (post_call_state cfg 1
                ⟨p, fun k => ⟨dur k, .failure (msg k)⟩⟩ st rc).now +
                  30 * 2 ^ rc },
            true, [Event.backoff 1 (rc + 1) (30 * 2 ^ rc) true]) := by
        rw [item_handle,
          handle_transient cfg 1 _ rc (msg rc) _ (hmsg rc) hrc2,
          sleep_none cfg hnone _ _ hpos]
      have hc2 : workerCancelled cfg (item_handle cfg 1
          ⟨p, fun k => ⟨dur k, .failure (msg k)⟩⟩ st rc (msg rc)).1.now =
          false := workerCancelled_none cfg hnone _
      have hh : (item_handle cfg 1 ⟨p, fun k => ⟨dur k, .failure (msg k)⟩⟩ st rc
          (msg rc)).2.1 = true := by rw [hhandle]
      rw [processItem_fail_retry cfg total 1 _ st rc (msg rc) hrc hp hout hc1
        hc2 hh]
      obtain ⟨ih1, ih2, ih3⟩ := ih (item_handle cfg 1
        ⟨p, fun k => ⟨dur k, .failure (msg k)⟩⟩ st rc (msg rc)).1 (rc + 1)
        (by omega) hrc2
      refine ⟨?_, ?_, ih3⟩
      · rw [backoffs_append, backoffs_append, backoffs_attempt, ih1, hhandle]
        have hn : maxRetries - rc = (maxRetries - (rc + 1)) + 1 := by omega
        rw [hn, List.range'_succ]
        simp
      · rw [count_budget_append, count_budget_append, count_budget_attempt,
          ih2, hhandle]
        simp [count_budget, is_budget_error]

theorem firstPermanent_spec (cfg : WorkerCfg) (hnone : cfg.cancelAt = none)
    (total : ℕ) (it : WorkItemScript) (st : WorkerSt) (msg : String)
    (h0 : (it.calls 0).outcome = .failure msg)
    (hft : is_transient_error msg = false) :
    processItem cfg total 1 it st 0 =
      (post_call_state cfg 1 it st 0,
        attempt_events cfg total 1 it st ++
          [Event.errorOccurred (failure_message it.path msg) it.path],
        some (.failure msg)) := by
  have hpd := pre_dispatch_first cfg 1 st (by omega)
  have hp : (pre_dispatch cfg 1 st).2.2 = true := by rw [hpd]
  have hc1 : workerCancelled cfg (post_call_state cfg 1 it st 0).now = false :=
    workerCancelled_none cfg hnone _
  have hhandle : item_handle cfg 1 it st 0 msg =
      (post_call_state cfg 1 it st 0, false, []) := by
    rw [item_handle]
    exact handle_permanent cfg 1 _ 0 msg it.path hft
  have hc2 : workerCancelled cfg (item_handle cfg 1 it st 0 msg).1.now =
      false := workerCancelled_none cfg hnone _
  have hh : (item_handle cfg 1 it st 0 msg).2.1 = false := by rw [hhandle]
  rw [processItem_fail_perm cfg total 1 it st 0 msg (by decide) hp h0 hc1 hc2 hh,
    hhandle]
  simp

theorem retryThenSuccess_spec (cfg : WorkerCfg) (hnone : cfg.cancelAt = none)
    (total : ℕ) (it : WorkItemScript) (st : WorkerSt) (msg : String)
    (h0 : (it.calls 0).outcome = .failure msg)
    (h1 : (it.calls 1).outcome = .success)
    (ht : is_transient_error msg = true) :
    (dispatches (processItem cfg total 1 it st 0).2.1).length = 2 ∧
    (processItem cfg total 1 it st 0).2.2 =
      some (.success (out_path cfg it)) ∧
    backoffs (processItem cfg total 1 it st 0).2.1 = [(1, 30, true)] := by
  have hpd := pre_dispatch_first cfg 1 st (by omega)
  have hp : (pre_dispatch cfg 1 st).2.2 = true := by rw [hpd]
  have hc1 : workerCancelled cfg (post_call_state cfg 1 it st 0).now = false :=
    workerCancelled_none cfg hnone _
  have hpos0 : (0 : ℚ) < 30 * 2 ^ (0 : ℕ) := by positivity
  have hpos : ¬ (30 * 2 ^ (0 : ℕ) : ℚ) ≤ 0 := by linarith
  have hhandle : item_handle cfg 1 it st 0 msg =
      ({ post_call_state cfg 1 it st 0 with
          now := (post_call_state cfg 1 it st 0).now + 30 * 2 ^ (0 : ℕ) },
        true, [Event.backoff 1 1 (30 * 2 ^ (0 : ℕ)) true]) := by
    rw [item_handle, handle_transient cfg 1 _ 0 msg it.path ht (by decide),
      sleep_none cfg hnone _ _ hpos]
  have hc2 : workerCancelled cfg (item_handle cfg 1 it st 0 msg).1.now =
      false := workerCancelled_none cfg hnone _
  have hh : (item_handle cfg 1 it st 0 msg).2.1 = true := by rw [hhandle]
  have hpd1 := pre_dispatch_first cfg 1 (item_handle cfg 1 it st 0 msg).1
    (by omega)
  have hp1 : (pre_dispatch cfg 1 (item_handle cfg 1 it st 0 msg).1).2.2 =
      true := by rw [hpd1]
  have hinner := processItem_success cfg total 1 it
    (item_handle cfg 1 it st 0 msg).1 1 (by decide) hp1 h1
  rw [processItem_fail_retry cfg total 1 it st 0 msg (by decide) hp h0 hc1 hc2
    hh, hinner]
  refine ⟨?_, rfl, ?_⟩
  · simp [dispatches_attempt, hhandle]
  · rw [backoffs_append, backoffs_append, backoffs_append, backoffs_attempt,
      backoffs_attempt, hhandle]
    simp

theorem runWorker_single (cfg : WorkerCfg) (hnone : cfg.cancelAt = none)
    (it : WorkItemScript) (t₀ : ℚ) :
    runWorker cfg [it] t₀ =
      ((processItem cfg 1 1 it { now := t₀, lastRequestTime := 0 } 0).2.1 ++
        [Event.progress 100,
         Event.finishedAll (record_result [] it.path
           (processItem cfg 1 1 it { now := t₀, lastRequestTime := 0 } 0).2.2)],
       record_result [] it.path
         (processItem cfg 1 1 it { now := t₀, lastRequestTime := 0 } 0).2.2) := by
  have h1 := workerCancelled_none cfg hnone t₀
  have h2 := workerCancelled_none cfg hnone
    (processItem cfg 1 1 it { now := t₀, lastRequestTime := 0 } 0).1.now
  simp [runWorker, runItems_cons_go cfg 1 1 it [] { now := t₀, lastRequestTime := 0 }
    [] h1 h2, runItems_nil]

/-! ## Claim theorems: the processing worker -/

/-- C1 (counterexample): in a two-item run with `rate_limit_delay = 6` where
each external call lasts 1 second, the dispatches occur at times 100 and 101:
the second dispatch follows the first by only 1 second, so the claim that no
two dispatches of a run are spaced closer than `minInterval` (the first
dispatch alone excepted) is false — the first dispatch is never recorded in
`last_request_time`, leaving the first-to-second gap unconstrained. -/
theorem C1_counterexample :
    dispatches (runWorker ⟨"out", 6, none⟩
        [⟨"a.jpg", fun _ => ⟨1, .success⟩⟩, ⟨"b.jpg", fun _ => ⟨1, .success⟩⟩]
        100).1 = [(1, 100), (2, 101)] ∧
    ¬ List.Chain' (fun a b : ℕ × ℚ => a.2 + 6 ≤ b.2)
        (dispatches (runWorker ⟨"out", 6, none⟩
          [⟨"a.jpg", fun _ => ⟨1, .success⟩⟩, ⟨"b.jpg", fun _ => ⟨1, .success⟩⟩]
          100).1) := by
  have h : dispatches (runWorker ⟨"out", 6, none⟩
      [⟨"a.jpg", fun _ => ⟨1, .success⟩⟩, ⟨"b.jpg", fun _ => ⟨1, .success⟩⟩]
      100).1 = [(1, 100), (2, 101)] := by
    norm_num +decide [runWorker, runItems, processItem, pre_dispatch,
      wait_for_rate_limit, sleep_with_cancel, workerCancelled, record_result]
  refine ⟨h, ?_⟩
  rw [h]
  intro hc
  obtain ⟨hab, -⟩ := List.chain'_cons.mp hc
  norm_num at hab

/-- C1 (amended): pacing holds from the second item on — whenever the earlier
of two consecutive dispatches belongs to an item of index ≥ 2 (so it was
recorded by the rate limiter), the later dispatch follows it by at least
`rate_limit_delay` seconds; the dispatches of the first item are never
recorded, so the dispatch following them is unconstrained.  Moreover, on
normal completion of the pacing wait the recorded last-dispatch time is
updated to the current time. -/
theorem C1_paced_from_second_item (cfg : WorkerCfg)
    (items : List WorkItemScript) (t₀ : ℚ) (hd : 0 ≤ cfg.rateLimitDelay) :
    List.Chain' (pacedRel cfg.rateLimitDelay)
      (dispatches (runWorker cfg items t₀).1) ∧
    (∀ st : WorkerSt, (wait_for_rate_limit cfg st).2.1 = true →
      (wait_for_rate_limit cfg st).1.lastRequestTime =
        (wait_for_rate_limit cfg st).1.now) := by
  constructor
  · have h := runItems_paced cfg items.length hd items 1
      { now := t₀, lastRequestTime := 0 } [] (by omega)
    have hsplit : dispatches (runWorker cfg items t₀).1 =
        dispatches (runItems cfg items.length items 1
          { now := t₀, lastRequestTime := 0 } []).2.1 := by
      simp [runWorker]
    rw [hsplit]
    exact h.2.2.1
  · intro st hok
    rcases wait_spec cfg st with ⟨_, h2, _⟩ | ⟨h1, _⟩
    · exact h2
    · rw [h1] at hok; cases hok

/-- Witness for C1 (amended) at a concrete three-item run. -/
theorem C1_paced_from_second_item_witness :
    List.Chain' (pacedRel (6 : ℚ))
      (dispatches (runWorker ⟨"out", 6, none⟩
        [⟨"a.jpg", fun _ => ⟨1, .success⟩⟩, ⟨"b.jpg", fun _ => ⟨1, .success⟩⟩,
         ⟨"c.jpg", fun _ => ⟨1, .success⟩⟩] 100).1) :=
  (C1_paced_from_second_item ⟨"out", 6, none⟩
    [⟨"a.jpg", fun _ => ⟨1, .success⟩⟩, ⟨"b.jpg", fun _ => ⟨1, .success⟩⟩,
     ⟨"c.jpg", fun _ => ⟨1, .success⟩⟩] 100 (by norm_num)).1

/-- C2: in every run, every backoff sleep has duration exactly
`30 * 2^(n-1)` seconds for its retry number `n ∈ {1, 2, 3}`; and an item
whose dispatches all fail transiently sleeps exactly 30s, 60s, 120s and is
then recorded as Failed. -/
theorem C2_backoff_schedule :
    (∀ (cfg : WorkerCfg) (items : List WorkItemScript) (t₀ : ℚ) (i n : ℕ)
        (d : ℚ) (o : Bool),
      Event.backoff i n d o ∈ (runWorker cfg items t₀).1 →
        d = 30 * 2 ^ (n - 1) ∧ 1 ≤ n ∧ n ≤ maxRetries) ∧
    (∀ (outdir p : String) (delay : ℚ) (dur : ℕ → ℚ) (msg : ℕ → String)
        (t₀ : ℚ), (∀ k, is_transient_error (msg k) = true) →
      backoffs (runWorker ⟨outdir, delay, none⟩
          [⟨p, fun k => ⟨dur k, .failure (msg k)⟩⟩] t₀).1 =
        [(1, 30, true), (2, 60, true), (3, 120, true)] ∧
      (runWorker ⟨outdir, delay, none⟩
          [⟨p, fun k => ⟨dur k, .failure (msg k)⟩⟩] t₀).2 =
        [(p, .failure (msg 3))]) := by
  constructor
  · intro cfg items t₀ i n d o hmem
    have hsplit : (runWorker cfg items t₀).1 =
        (runItems cfg items.length items 1
          { now := t₀, lastRequestTime := 0 } []).2.1 ++
          [Event.progress 100, Event.finishedAll
            (runItems cfg items.length items 1
              { now := t₀, lastRequestTime := 0 } []).2.2] := by
      simp [runWorker]
    rw [hsplit] at hmem
    rcases List.mem_append.1 hmem with h | h
    · exact (runItems_events cfg items.length items 1
        { now := t₀, lastRequestTime := 0 } []).1 i n d o h
    · simp at h
  · intro outdir p delay dur msg t₀ hmsg
    have hone := runWorker_single ⟨outdir, delay, none⟩ rfl
      ⟨p, fun k => ⟨dur k, .failure (msg k)⟩⟩ t₀
    obtain ⟨hb, _, hout⟩ := allTransient_spec ⟨outdir, delay, none⟩ rfl 1 p dur
      msg hmsg (maxRetries + 1) { now := t₀, lastRequestTime := 0 } 0
      (by omega) (by decide)
    constructor
    · rw [hone, backoffs_append, hb]
      norm_num [maxRetries, List.range', backoffs]
    · rw [hone, hout]
      simp [record_result, maxRetries]

/-- Witness for C2 at a concrete all-transient single-item run. -/
theorem C2_backoff_schedule_witness :
    backoffs (runWorker ⟨"out", 6, none⟩
        [⟨"t.jpg", fun _ => ⟨1, .failure "429"⟩⟩] 100).1 =
      [(1, 30, true), (2, 60, true), (3, 120, true)] ∧
    (runWorker ⟨"out", 6, none⟩
        [⟨"t.jpg", fun _ => ⟨1, .failure "429"⟩⟩] 100).2 =
      [("t.jpg", .failure "429")] :=
  (C2_backoff_schedule.2 "out" "t.jpg" 6 (fun _ => 1) (fun _ => "429") 100
    (fun _ => by show is_transient_error "429" = true; decide))

/-- C3: when an item's dispatches keep failing transiently, its 4th
consecutive transient error is reported as a permanent failure: the run's
trace carries exactly one error event whose message names the exhausted
retry budget, the item is recorded as failed in the final results mapping,
and — distinguishing this from a first-attempt permanent failure — a run
whose item fails permanently on its first attempt carries no such event. -/
theorem C3_budget_exhaustion :
    ∀ (outdir p : String) (delay : ℚ) (dur : ℕ → ℚ) (msg : ℕ → String)
      (t₀ : ℚ), (∀ k, is_transient_error (msg k) = true) →
      count_budget (runWorker ⟨outdir, delay, none⟩
          [⟨p, fun k => ⟨dur k, .failure (msg k)⟩⟩] t₀).1 = 1 ∧
      (runWorker ⟨outdir, delay, none⟩
          [⟨p, fun k => ⟨dur k, .failure (msg k)⟩⟩] t₀).2 =
        [(p, .failure (msg 3))] ∧
      (∀ (msg' : String) (dur' : ℚ), is_transient_error msg' = false →
        count_budget (runWorker ⟨outdir, delay, none⟩
            [⟨p, fun _ => ⟨dur', .failure msg'⟩⟩] t₀).1 = 0) := by
  intro outdir p delay dur msg t₀ hmsg
  have hone := runWorker_single ⟨outdir, delay, none⟩ rfl
    ⟨p, fun k => ⟨dur k, .failure (msg k)⟩⟩ t₀
  obtain ⟨_, hcount, hout⟩ := allTransient_spec ⟨outdir, delay, none⟩ rfl 1 p
    dur msg hmsg (maxRetries + 1) { now := t₀, lastRequestTime := 0 } 0
    (by omega) (by decide)
  refine ⟨?_, ?_, ?_⟩
  · rw [hone, count_budget_append, hcount]
    simp [count_budget, is_budget_error]
  · rw [hone, hout]
    simp [record_result, maxRetries]
  · intro msg' dur' hperm
    have hone' := runWorker_single ⟨outdir, delay, none⟩ rfl
      ⟨p, fun _ => ⟨dur', .failure msg'⟩⟩ t₀
    have hfp := firstPermanent_spec ⟨outdir, delay, none⟩ rfl 1
      ⟨p, fun _ => ⟨dur', .failure msg'⟩⟩ { now := t₀, lastRequestTime := 0 }
      msg' rfl hperm
    rw [hone', hfp, count_budget_append, count_budget_append,
      count_budget_attempt]
    simp [count_budget, is_budget_error,
      beq_eq_false_iff_ne.2 (failure_message_ne_budget p msg')]

/-- Witness for C3 at concrete transient and permanent single-item runs. -/
theorem C3_budget_exhaustion_witness :
    count_budget (runWorker ⟨"out", 6, none⟩
        [⟨"t.jpg", fun _ => ⟨1, .failure "429"⟩⟩] 100).1 = 1 ∧
    count_budget (runWorker ⟨"out", 6, none⟩
        [⟨"t.jpg", fun _ => ⟨1, .failure "boom"⟩⟩] 100).1 = 0 :=
  ⟨(C3_budget_exhaustion "out" "t.jpg" 6 (fun _ => 1) (fun _ => "429") 100
      (fun _ => by show is_transient_error "429" = true; decide)).1,
   (C3_budget_exhaustion "out" "t.jpg" 6 (fun _ => 1) (fun _ => "429") 100
      (fun _ => by show is_transient_error "429" = true; decide)).2.2 "boom" 1
      (by decide)⟩

/-- C4: an error raised by the external call is retried (the single-item run
dispatches a second time and then succeeds) precisely when its lowercased
text contains the rate-limit phrase, the quota-exceeded phrase, or the code
429; any other error ends the item at once — one dispatch, no backoff, the
item recorded as failed with that error. -/
theorem C4_transient_classification :
    ∀ (outdir p : String) (delay d₀ d₁ : ℚ) (msg : String) (t₀ : ℚ),
      (((dispatches (runWorker ⟨outdir, delay, none⟩
          [⟨p, fun k => if k = 0 then ⟨d₀, .failure msg⟩ else ⟨d₁, .success⟩⟩]
          t₀).1).length = 2 ∧
        (runWorker ⟨outdir, delay, none⟩
          [⟨p, fun k => if k = 0 then ⟨d₀, .failure msg⟩ else ⟨d₁, .success⟩⟩]
          t₀).2 =
          [(p, .success (out_path ⟨outdir, delay, none⟩
            ⟨p, fun k => if k = 0 then ⟨d₀, .failure msg⟩ else
              ⟨d₁, .success⟩⟩))]) ↔
        (str_contains_sub (py_lower msg) "rate limit" = true ∨
          str_contains_sub (py_lower msg) "quota exceeded" = true ∨
          str_contains_sub (py_lower msg) "429" = true)) ∧
      (is_transient_error msg = false →
        (dispatches (runWorker ⟨outdir, delay, none⟩
          [⟨p, fun k => if k = 0 then ⟨d₀, .failure msg⟩ else ⟨d₁, .success⟩⟩]
          t₀).1).length = 1 ∧
        (runWorker ⟨outdir, delay, none⟩
          [⟨p, fun k => if k = 0 then ⟨d₀, .failure msg⟩ else ⟨d₁, .success⟩⟩]
          t₀).2 = [(p, .failure msg)] ∧
        backoffs (runWorker ⟨outdir, delay, none⟩
          [⟨p, fun k => if k = 0 then ⟨d₀, .failure msg⟩ else ⟨d₁, .success⟩⟩]
          t₀).1 = []) := by
  intro outdir p delay d₀ d₁ msg t₀
  have hone := runWorker_single ⟨outdir, delay, none⟩ rfl
    ⟨p, fun k => if k = 0 then ⟨d₀, .failure msg⟩ else ⟨d₁, .success⟩⟩ t₀
  have hperm_conclusions : is_transient_error msg = false →
      (dispatches (runWorker ⟨outdir, delay, none⟩
        [⟨p, fun k => if k = 0 then ⟨d₀, .failure msg⟩ else ⟨d₁, .success⟩⟩]
        t₀).1).length = 1 ∧
      (runWorker ⟨outdir, delay, none⟩
        [⟨p, fun k => if k = 0 then ⟨d₀, .failure msg⟩ else ⟨d₁, .success⟩⟩]
        t₀).2 = [(p, .failure msg)] ∧
      backoffs (runWorker ⟨outdir, delay, none⟩
        [⟨p, fun k => if k = 0 then ⟨d₀, .failure msg⟩ else ⟨d₁, .success⟩⟩]
        t₀).1 = [] := by
    intro hperm
    have hfp := firstPermanent_spec ⟨outdir, delay, none⟩ rfl 1
      ⟨p, fun k => if k = 0 then ⟨d₀, .failure msg⟩ else ⟨d₁, .success⟩⟩
      { now := t₀, lastRequestTime := 0 } msg rfl hperm
    refine ⟨?_, ?_, ?_⟩
    · rw [hone, hfp]
      simp [dispatches_attempt]
    · rw [hone, hfp]
      simp [record_result]
    · rw [hone, hfp]
      simp [backoffs_attempt]
  constructor
  · cases hmt : is_transient_error msg with
    | true =>
      obtain ⟨hlen, hout, _⟩ := retryThenSuccess_spec ⟨outdir, delay, none⟩ rfl
        1 ⟨p, fun k => if k = 0 then ⟨d₀, .failure msg⟩ else ⟨d₁, .success⟩⟩
        { now := t₀, lastRequestTime := 0 } msg rfl rfl hmt
      constructor
      · intro _
        have := hmt
        simp only [is_transient_error, Bool.or_eq_true] at this
        tauto
      · intro _
        constructor
        · rw [hone]
          simp only [dispatches_append]
          simp [hlen]
        · rw [hone, hout]
          simp [record_result]
    | false =>
      constructor
      · intro ⟨h2, _⟩
        obtain ⟨h1, _, _⟩ := hperm_conclusions hmt
        rw [h1] at h2
        cases h2
      · intro hmark
        exfalso
        have : is_transient_error msg = true := by
          simp only [is_transient_error, Bool.or_eq_true]
          tauto
        rw [hmt] at this
        cases this
  · exact hperm_conclusions

/-- Witness for C4 at concrete transient and permanent messages. -/
theorem C4_transient_classification_witness :
    (str_contains_sub (py_lower "HTTP 429") "rate limit" = true ∨
      str_contains_sub (py_lower "HTTP 429") "quota exceeded" = true ∨
      str_contains_sub (py_lower "HTTP 429") "429" = true) ∧
    (dispatches (runWorker ⟨"out", 6, none⟩
      [⟨"a.jpg", fun k => if k = 0 then ⟨1, .failure "boom"⟩ else
        ⟨1, .success⟩⟩] 100).1).length = 1 :=
  ⟨((C4_transient_classification "out" "a.jpg" 6 1 1 "HTTP 429" 100).1).mp
      (by constructor
          · norm_num +decide [runWorker, runItems, processItem, pre_dispatch,
              wait_for_rate_limit, sleep_with_cancel, workerCancelled,
              record_result, handle_rate_limit_error]
          · norm_num +decide [runWorker, runItems, processItem, pre_dispatch,
              wait_for_rate_limit, sleep_with_cancel, workerCancelled,
              record_result, handle_rate_limit_error, out_path]),
   ((C4_transient_classification "out" "a.jpg" 6 1 1 "boom" 100).2
      (by decide)).1⟩

/-- C7: in every run, once a pacing or backoff sleep is cut short by the
cancellation flag, no dispatch to the external collaborator ever follows in
the trace (so the in-progress item is not retried and unstarted items are
never dispatched); every entry of the final results mapping belongs to an
item that was actually dispatched (unstarted items get no entry); and the
run still ends by emitting the final aggregate event carrying that
mapping. -/
theorem C7_cancellation_stops_dispatches (cfg : WorkerCfg)
    (items : List WorkItemScript) (t₀ : ℚ) :
    List.Pairwise cutRel (runWorker cfg items t₀).1 ∧
    (∀ pr ∈ (runWorker cfg items t₀).2,
      ∃ i t, Event.dispatch i pr.1 t ∈ (runWorker cfg items t₀).1) ∧
    (∃ pre, (runWorker cfg items t₀).1 =
      pre ++ [Event.progress 100,
        Event.finishedAll (runWorker cfg items t₀).2]) := by
  obtain ⟨-, e2, e3⟩ := runItems_events cfg items.length items 1
    { now := t₀, lastRequestTime := 0 } []
  have hsplit : (runWorker cfg items t₀).1 =
      (runItems cfg items.length items 1
        { now := t₀, lastRequestTime := 0 } []).2.1 ++
        [Event.progress 100, Event.finishedAll
          (runItems cfg items.length items 1
            { now := t₀, lastRequestTime := 0 } []).2.2] := by
    simp [runWorker]
  have hres : (runWorker cfg items t₀).2 =
      (runItems cfg items.length items 1
        { now := t₀, lastRequestTime := 0 } []).2.2 := by
    simp [runWorker]
  refine ⟨?_, ?_, ?_⟩
  · rw [hsplit, List.pairwise_append]
    refine ⟨e2, ?_, ?_⟩
    · refine List.Pairwise.cons (fun b hb _ => ?_) (List.pairwise_singleton _ _)
      simp only [List.mem_singleton] at hb
      subst hb
      rfl
    · intro a _ b hb _
      simp only [List.mem_cons, List.not_mem_nil, or_false] at hb
      rcases hb with rfl | rfl <;> rfl
  · intro pr hpr
    rw [hres] at hpr
    rcases e3 pr hpr with h | ⟨i, t, ht⟩
    · cases h
    · exact ⟨i, t, by rw [hsplit]; exact List.mem_append_left _ ht⟩
  · exact ⟨(runItems cfg items.length items 1
      { now := t₀, lastRequestTime := 0 } []).2.1, by rw [hsplit, hres]⟩

/-- Witness for C7: a three-item run whose cancellation flag is set during
the pacing wait before item 3 dispatches items 1-2 only, records exactly
their outcomes, and still emits the aggregate. -/
theorem C7_cancellation_stops_dispatches_witness :
    ("b.jpg", ItemResult.success "out/b_gemini.jpg") ∈
      (runWorker ⟨"out", 6, some 103⟩
        [⟨"a.jpg", fun _ => ⟨1, .success⟩⟩, ⟨"b.jpg", fun _ => ⟨1, .success⟩⟩,
         ⟨"c.jpg", fun _ => ⟨1, .success⟩⟩] 100).2 ∧
    ∃ i t, Event.dispatch i "b.jpg" t ∈
      (runWorker ⟨"out", 6, some 103⟩
        [⟨"a.jpg", fun _ => ⟨1, .success⟩⟩, ⟨"b.jpg", fun _ => ⟨1, .success⟩⟩,
         ⟨"c.jpg", fun _ => ⟨1, .success⟩⟩] 100).1 := by
  have hmem : ("b.jpg", ItemResult.success "out/b_gemini.jpg") ∈
      (runWorker ⟨"out", 6, some 103⟩
        [⟨"a.jpg", fun _ => ⟨1, .success⟩⟩, ⟨"b.jpg", fun _ => ⟨1, .success⟩⟩,
         ⟨"c.jpg", fun _ => ⟨1, .success⟩⟩] 100).2 := by
    norm_num +decide [runWorker, runItems, processItem, pre_dispatch,
      wait_for_rate_limit, sleep_with_cancel, workerCancelled, record_result]
  exact ⟨hmem, (C7_cancellation_stops_dispatches ⟨"out", 6, some 103⟩
    [⟨"a.jpg", fun _ => ⟨1, .success⟩⟩, ⟨"b.jpg", fun _ => ⟨1, .success⟩⟩,
     ⟨"c.jpg", fun _ => ⟨1, .success⟩⟩] 100).2.1 _ hmem⟩

theorem chain_path_append (full : String) (comps : List String) (c : String) :
    chain_path full (comps ++ [c]) = py_join (chain_path full comps) c := by
  induction comps generalizing full with
  | nil => rfl
  | cons x xs ih => exact ih (py_join full x)

theorem good_chain_append (full : String) (comps : List String) (c : String)
    (h : good_chain full comps)
    (hc : is_result_directory (py_join (chain_path full comps) c) = false) :
    good_chain full (comps ++ [c]) := by
  induction comps generalizing full with
  | nil => exact ⟨hc, trivial⟩
  | cons x xs ih =>
    exact ⟨h.1, ih (py_join full x) h.2 hc⟩

set_option maxHeartbeats 1600000 in
theorem processFiles_sound (cfg : ScanCfg) (full : String) :
    ∀ (files : List String) (st : ScanSt),
      ScanInv cfg.folderPath st → SoundDir cfg.folderPath full →
      ScanInv cfg.folderPath (processFiles cfg full files st) := by
  intro files
  induction files with
  | nil => intro st h _; exact h
  | cons f fs ih =>
    intro st h hdir
    obtain ⟨h1, h2, h3⟩ := h
    by_cases hcan : scanCancelled cfg st = true
    · simpa [processFiles, hcan] using ⟨h1, h2, h3⟩
    · have hcan' : scanCancelled cfg st = false := by simpa using hcan
      by_cases hrf : is_result_file f = true
      · rw [processFiles]
        simp only [hcan', Bool.false_eq_true, if_false, hrf, if_true]
        exact ih _ ⟨h1, h2, h3⟩ hdir
      · have hrf' : is_result_file f = false := by simpa using hrf
        by_cases hext : has_image_extension f = true
        · rw [processFiles]
          simp only [hcan', Bool.false_eq_true, if_false, hrf', hext,
            not_true_eq_false]
          obtain ⟨comps, hroot, hgc, hcp⟩ := hdir
          cases hfind : find_existing_result cfg.fsExists (py_join full f) with
          | some r =>
            refine ih _ ⟨h1, ?_, h3⟩ ⟨comps, hroot, hgc, hcp⟩
            intro pr hpr
            rcases List.mem_append.1 hpr with hm | hm
            · exact h2 pr hm
            · simp only [List.mem_singleton] at hm
              subst hm
              exact ⟨comps, f, hroot, hgc, hrf', hext, by rw [hcp]⟩
          | none =>
            refine ih _ ⟨?_, h2, h3⟩ ⟨comps, hroot, hgc, hcp⟩
            intro p hp
            rcases List.mem_append.1 hp with hm | hm
            · exact h1 p hm
            · simp only [List.mem_singleton] at hm
              subst hm
              exact ⟨comps, f, hroot, hgc, hrf', hext, by rw [hcp]⟩
        · have hext' : ¬ has_image_extension f = true := hext
          rw [processFiles]
          simp only [hcan', Bool.false_eq_true, if_false, hrf', hext',
            not_false_eq_true, if_true]
          exact ih _ ⟨h1, h2, h3⟩ hdir

theorem walkDir_cancelled (cfg : ScanCfg) (full : String) (d : FSDir)
    (st : ScanSt) (hc : scanCancelled cfg st = true) :
    walkDir cfg full d st = .ok st := by
  rw [walkDir.eq_def]
  simp [hc]

theorem walkDir_fails (cfg : ScanCfg) (full : String) (d : FSDir) (st : ScanSt)
    (hc : scanCancelled cfg st = false) (hf : scanFails cfg st = true) :
    walkDir cfg full d st = .error st := by
  rw [walkDir.eq_def]
  simp [hc, hf]

theorem walkDir_result (cfg : ScanCfg) (full : String) (d : FSDir)
    (st : ScanSt) (hc : scanCancelled cfg st = false)
    (hf : scanFails cfg st = false) (hres : is_result_directory full = true) :
    walkDir cfg full d st =
      .ok { st with steps := st.steps + 1, skippedDirCount := st.skippedDirCount + 1 } := by
  rw [walkDir.eq_def]
  simp [hc, hf, hres]

theorem walkDir_go (cfg : ScanCfg) (full name : String) (subdirs : List FSDir)
    (files : List String) (st : ScanSt) (hc : scanCancelled cfg st = false)
    (hf : scanFails cfg st = false) (hres : is_result_directory full = false) :
    walkDir cfg full (.node name subdirs files) st =
      walkDirs cfg full subdirs
        (processFiles cfg full files
          { st with steps := st.steps + 1, visited := st.visited ++ [full] }) := by
  rw [walkDir.eq_def]
  simp [hc, hf, hres]

theorem walkDirs_nil (cfg : ScanCfg) (parent : String) (st : ScanSt) :
    walkDirs cfg parent [] st = .ok st := by
  rw [walkDirs.eq_def]

theorem walkDirs_prune (cfg : ScanCfg) (parent name : String)
    (subdirs : List FSDir) (files : List String) (cs : List FSDir)
    (st : ScanSt) (hp : is_result_directory (py_join parent name) = true) :
    walkDirs cfg parent (.node name subdirs files :: cs) st =
      walkDirs cfg parent cs
        { st with skippedDirCount := st.skippedDirCount + 1 } := by
  rw [walkDirs.eq_def]
  simp [hp]

theorem walkDirs_step (cfg : ScanCfg) (parent name : String)
    (subdirs : List FSDir) (files : List String) (cs : List FSDir)
    (st : ScanSt) (hp : is_result_directory (py_join parent name) = false) :
    walkDirs cfg parent (.node name subdirs files :: cs) st =
      match walkDir cfg (py_join parent name) (.node name subdirs files) st with
      | .error e => .error e
      | .ok st' => walkDirs cfg parent cs st' := by
  rw [walkDirs.eq_def]
  simp [hp]

mutual
theorem walkDir_sound (cfg : ScanCfg) (full : String) (d : FSDir) (st : ScanSt)
    (h : ScanInv cfg.folderPath st)
    (hdir : is_result_directory full = false → SoundDir cfg.folderPath full) :
    ScanInvE cfg.folderPath (walkDir cfg full d st) := by
  by_cases hcan : scanCancelled cfg st = true
  · rw [walkDir_cancelled cfg full d st hcan]
    exact h
  · have hcan' : scanCancelled cfg st = false := by simpa using hcan
    by_cases hfail : scanFails cfg st = true
    · rw [walkDir_fails cfg full d st hcan' hfail]
      exact h
    · have hfail' : scanFails cfg st = false := by simpa using hfail
      by_cases hres : is_result_directory full = true
      · rw [walkDir_result cfg full d st hcan' hfail' hres]
        exact ⟨h.1, h.2.1, h.2.2⟩
      · have hres' : is_result_directory full = false := by simpa using hres
        obtain ⟨comps, hroot, hgc, hcp⟩ := hdir hres'
        cases d with
        | node name subdirs files =>
          rw [walkDir_go cfg full name subdirs files st hcan' hfail' hres']
          refine walkDirs_sound cfg full subdirs _ ?_
            ⟨comps, hroot, hgc, hcp⟩
          refine processFiles_sound cfg full files _ ?_
            ⟨comps, hroot, hgc, hcp⟩
          refine ⟨h.1, h.2.1, ?_⟩
          intro dd hdd
          rcases List.mem_append.1 hdd with hm | hm
          · exact h.2.2 dd hm
          · simp only [List.mem_singleton] at hm
            subst hm
            exact ⟨comps, hroot, hgc, hcp⟩

theorem walkDirs_sound (cfg : ScanCfg) (parent : String) (ds : List FSDir)
    (st : ScanSt) (h : ScanInv cfg.folderPath st)
    (hdir : SoundDir cfg.folderPath parent) :
    ScanInvE cfg.folderPath (walkDirs cfg parent ds st) := by
  match ds with
  | [] =>
    rw [walkDirs_nil]
    exact h
  | FSDir.node name subdirs files :: cs =>
    by_cases hprune : is_result_directory (py_join parent name) = true
    · rw [walkDirs_prune cfg parent name subdirs files cs st hprune]
      exact walkDirs_sound cfg parent cs _ ⟨h.1, h.2.1, h.2.2⟩ hdir
    · have hprune' : is_result_directory (py_join parent name) = false := by
        simpa using hprune
      rw [walkDirs_step cfg parent name subdirs files cs st hprune']
      have hchild : is_result_directory (py_join parent name) = false →
          SoundDir cfg.folderPath (py_join parent name) := by
        intro _
        obtain ⟨comps, hroot, hgc, hcp⟩ := hdir
        refine ⟨comps ++ [name], hroot, ?_, ?_⟩
        · exact good_chain_append cfg.folderPath comps name hgc
            (by rw [← hcp]; exact hprune')
        · rw [chain_path_append, hcp]
      have hrec := walkDir_sound cfg (py_join parent name)
        (.node name subdirs files) st h hchild
      cases hw : walkDir cfg (py_join parent name)
          (.node name subdirs files) st with
      | error e =>
        rw [hw] at hrec
        exact hrec
      | ok st' =>
        rw [hw] at hrec
        exact walkDirs_sound cfg parent cs st' hrec hdir
end


theorem scanCancelled_none (cfg : ScanCfg) (h : cfg.cancelAfter = none)
    (st : ScanSt) : scanCancelled cfg st = false := by
  simp [scanCancelled, h]

theorem scanFails_none (cfg : ScanCfg) (h : cfg.failAfter = none)
    (st : ScanSt) : scanFails cfg st = false := by
  simp [scanFails, h]

theorem scannerRun_sound (cfg : ScanCfg) (root : FSDir) :
    ScanInv cfg.folderPath (scannerRun cfg root).2 := by
  have hinit : ScanInv cfg.folderPath {} := by
    refine ⟨?_, ?_, ?_⟩ <;> intro x hx <;> exact absurd hx (List.not_mem_nil x)
  have h := walkDir_sound cfg cfg.folderPath root {} hinit
    (fun hres => ⟨[], hres, trivial, rfl⟩)
  unfold scannerRun
  cases hw : walkDir cfg cfg.folderPath root {} with
  | error st =>
    rw [hw] at h
    exact h
  | ok st =>
    rw [hw] at h
    by_cases hc : scanCancelled cfg st = true <;> simp [hc] <;> exact h

mutual
theorem walkDir_no_error (cfg : ScanCfg) (hf : cfg.failAfter = none)
    (full : String) (d : FSDir) (st : ScanSt) :
    ∃ st', walkDir cfg full d st = .ok st' := by
  by_cases hcan : scanCancelled cfg st = true
  · exact ⟨st, walkDir_cancelled cfg full d st hcan⟩
  · have hcan' : scanCancelled cfg st = false := by simpa using hcan
    have hfail := scanFails_none cfg hf st
    by_cases hres : is_result_directory full = true
    · exact ⟨_, walkDir_result cfg full d st hcan' hfail hres⟩
    · have hres' : is_result_directory full = false := by simpa using hres
      cases d with
      | node name subdirs files =>
        rw [walkDir_go cfg full name subdirs files st hcan' hfail hres']
        exact walkDirs_no_error cfg hf full subdirs _

theorem walkDirs_no_error (cfg : ScanCfg) (hf : cfg.failAfter = none)
    (parent : String) (ds : List FSDir) (st : ScanSt) :
    ∃ st', walkDirs cfg parent ds st = .ok st' := by
  match ds with
  | [] => exact ⟨st, walkDirs_nil cfg parent st⟩
  | FSDir.node name subdirs files :: cs =>
    by_cases hprune : is_result_directory (py_join parent name) = true
    · rw [walkDirs_prune cfg parent name subdirs files cs st hprune]
      exact walkDirs_no_error cfg hf parent cs _
    · have hprune' : is_result_directory (py_join parent name) = false := by
        simpa using hprune
      rw [walkDirs_step cfg parent name subdirs files cs st hprune']
      obtain ⟨st', hw⟩ := walkDir_no_error cfg hf (py_join parent name)
        (.node name subdirs files) st
      rw [hw]
      exact walkDirs_no_error cfg hf parent cs st'
end


/-! ## The strengthened soundness chain: plain-name components -/

theorem dirWF_node (name : String) (subdirs : List FSDir)
    (files : List String) :
    dirWF (.node name subdirs files) =
      (plain_name name && files.all plain_name && dirsWF subdirs) := by
  rw [dirWF.eq_def]

theorem dirsWF_nil : dirsWF [] = true := by
  rw [dirsWF.eq_def]

theorem dirsWF_cons (d : FSDir) (ds : List FSDir) :
    dirsWF (d :: ds) = (dirWF d && dirsWF ds) := by
  rw [dirsWF.eq_def]

theorem plain_name_ne_nil (s : String) (h : plain_name s = true) :
    s.toList ≠ [] := by
  intro hn
  simp [plain_name] at h
  exact h.1 hn

theorem plain_name_no_slash (s : String) (h : plain_name s = true) :
    '/' ∉ s.toList := by
  intro hm
  simp only [plain_name, Bool.and_eq_true, List.all_eq_true] at h
  have h2 := h.2 '/' hm
  simp at h2

theorem plain_getLast_ne_slash (s : String) (h : plain_name s = true) :
    s.toList.getLast? ≠ some '/' := by
  intro hh
  exact plain_name_no_slash s h (List.mem_of_mem_getLast? hh)

theorem str_toList_append (a b : String) :
    (a ++ b).toList = a.toList ++ b.toList := by
  cases a
  cases b
  rfl

theorem str_toList_inj (s t : String) (h : s.toList = t.toList) : s = t := by
  cases s
  cases t
  exact congrArg String.mk h

theorem py_join_plain (a f : String) (ha : a ≠ "")
    (ha2 : a.toList.getLast? ≠ some '/') (hf : plain_name f = true) :
    py_join a f = a ++ "/" ++ f := by
  have hh : ¬ f.data.head? = some '/' := by
    intro h0
    exact plain_name_no_slash f hf (List.mem_of_mem_head? h0)
  have ha2' : ¬ a.data.getLast? = some '/' := ha2
  simp [py_join, hh, ha, ha2']

set_option maxHeartbeats 1600000 in
theorem processFiles_soundS (cfg : ScanCfg) (full : String) :
    ∀ (files : List String) (st : ScanSt),
      (∀ f ∈ files, plain_name f = true) →
      ScanInvS cfg.folderPath st → SoundDirS cfg.folderPath full →
      ScanInvS cfg.folderPath (processFiles cfg full files st) := by
  intro files
  induction files with
  | nil => intro st _ h _; exact h
  | cons f fs ih =>
    intro st hpl h hdir
    have hpf : plain_name f = true := hpl f (List.mem_cons_self f fs)
    have hpfs : ∀ g ∈ fs, plain_name g = true :=
      fun g hg => hpl g (List.mem_cons_of_mem f hg)
    obtain ⟨h1, h2, h3⟩ := h
    by_cases hcan : scanCancelled cfg st = true
    · simpa [processFiles, hcan] using ⟨h1, h2, h3⟩
    · have hcan' : scanCancelled cfg st = false := by simpa using hcan
      by_cases hrf : is_result_file f = true
      · rw [processFiles]
        simp only [hcan', Bool.false_eq_true, if_false, hrf, if_true]
        exact ih _ hpfs ⟨h1, h2, h3⟩ hdir
      · have hrf' : is_result_file f = false := by simpa using hrf
        by_cases hext : has_image_extension f = true
        · rw [processFiles]
          simp only [hcan', Bool.false_eq_true, if_false, hrf', hext,
            not_true_eq_false]
          obtain ⟨comps, hroot, hcpl, hgc, hcp⟩ := hdir
          cases hfind : find_existing_result cfg.fsExists (py_join full f) with
          | some r =>
            refine ih _ hpfs ⟨h1, ?_, h3⟩ ⟨comps, hroot, hcpl, hgc, hcp⟩
            intro pr hpr
            rcases List.mem_append.1 hpr with hm | hm
            · exact h2 pr hm
            · simp only [List.mem_singleton] at hm
              subst hm
              exact ⟨comps, f, hroot, hcpl, hpf, hgc, hrf', hext, by rw [hcp]⟩
          | none =>
            refine ih _ hpfs ⟨?_, h2, h3⟩ ⟨comps, hroot, hcpl, hgc, hcp⟩
            intro p hp
            rcases List.mem_append.1 hp with hm | hm
            · exact h1 p hm
            · simp only [List.mem_singleton] at hm
              subst hm
              exact ⟨comps, f, hroot, hcpl, hpf, hgc, hrf', hext, by rw [hcp]⟩
        · have hext' : ¬ has_image_extension f = true := hext
          rw [processFiles]
          simp only [hcan', Bool.false_eq_true, if_false, hrf', hext',
            not_false_eq_true, if_true]
          exact ih _ hpfs ⟨h1, h2, h3⟩ hdir

mutual
theorem walkDir_soundS (cfg : ScanCfg) (full : String) (d : FSDir)
    (st : ScanSt) (hwf : dirWF d = true) (h : ScanInvS cfg.folderPath st)
    (hdir : is_result_directory full = false → SoundDirS cfg.folderPath full) :
    ScanInvSE cfg.folderPath (walkDir cfg full d st) := by
  by_cases hcan : scanCancelled cfg st = true
  · rw [walkDir_cancelled cfg full d st hcan]
    exact h
  · have hcan' : scanCancelled cfg st = false := by simpa using hcan
    by_cases hfail : scanFails cfg st = true
    · rw [walkDir_fails cfg full d st hcan' hfail]
      exact h
    · have hfail' : scanFails cfg st = false := by simpa using hfail
      by_cases hres : is_result_directory full = true
      · rw [walkDir_result cfg full d st hcan' hfail' hres]
        exact ⟨h.1, h.2.1, h.2.2⟩
      · have hres' : is_result_directory full = false := by simpa using hres
        obtain ⟨comps, hroot, hcpl, hgc, hcp⟩ := hdir hres'
        cases d with
        | node name subdirs files =>
          rw [dirWF_node] at hwf
          simp only [Bool.and_eq_true] at hwf
          obtain ⟨⟨hpn, hpfiles⟩, hsubs⟩ := hwf
          rw [walkDir_go cfg full name subdirs files st hcan' hfail' hres']
          refine walkDirs_soundS cfg full subdirs _ hsubs ?_
            ⟨comps, hroot, hcpl, hgc, hcp⟩
          refine processFiles_soundS cfg full files _ ?_ ?_
            ⟨comps, hroot, hcpl, hgc, hcp⟩
          · intro g hg
            exact List.all_eq_true.1 hpfiles g hg
          · refine ⟨h.1, h.2.1, ?_⟩
            intro dd hdd
            rcases List.mem_append.1 hdd with hm | hm
            · exact h.2.2 dd hm
            · simp only [List.mem_singleton] at hm
              subst hm
              exact ⟨comps, hroot, hcpl, hgc, hcp⟩

theorem walkDirs_soundS (cfg : ScanCfg) (parent : String) (ds : List FSDir)
    (st : ScanSt) (hwf : dirsWF ds = true) (h : ScanInvS cfg.folderPath st)
    (hdir : SoundDirS cfg.folderPath parent) :
    ScanInvSE cfg.folderPath (walkDirs cfg parent ds st) := by
  match ds with
  | [] =>
    rw [walkDirs_nil]
    exact h
  | FSDir.node name subdirs files :: cs =>
    rw [dirsWF_cons] at hwf
    simp only [Bool.and_eq_true] at hwf
    obtain ⟨hwd, hwds⟩ := hwf
    by_cases hprune : is_result_directory (py_join parent name) = true
    · rw [walkDirs_prune cfg parent name subdirs files cs st hprune]
      exact walkDirs_soundS cfg parent cs _ hwds ⟨h.1, h.2.1, h.2.2⟩ hdir
    · have hprune' : is_result_directory (py_join parent name) = false := by
        simpa using hprune
      rw [walkDirs_step cfg parent name subdirs files cs st hprune']
      have hpn : plain_name name = true := by
        rw [dirWF_node] at hwd
        simp only [Bool.and_eq_true] at hwd
        exact hwd.1.1
      have hchild : is_result_directory (py_join parent name) = false →
          SoundDirS cfg.folderPath (py_join parent name) := by
        intro _
        obtain ⟨comps, hroot, hcpl, hgc, hcp⟩ := hdir
        refine ⟨comps ++ [name], hroot, ?_, ?_, ?_⟩
        · intro c hc
          rcases List.mem_append.1 hc with hm | hm
          · exact hcpl c hm
          · simp only [List.mem_singleton] at hm
            subst hm
            exact hpn
        · exact good_chain_append cfg.folderPath comps name hgc
            (by rw [← hcp]; exact hprune')
        · rw [chain_path_append, hcp]
      have hrec := walkDir_soundS cfg (py_join parent name)
        (.node name subdirs files) st hwd h hchild
      cases hw : walkDir cfg (py_join parent name)
          (.node name subdirs files) st with
      | error e =>
        rw [hw] at hrec
        exact hrec
      | ok st' =>
        rw [hw] at hrec
        exact walkDirs_soundS cfg parent cs st' hwds hrec hdir
end


theorem scannerRun_soundS (cfg : ScanCfg) (root : FSDir)
    (hwf : dirWF root = true) :
    ScanInvS cfg.folderPath (scannerRun cfg root).2 := by
  have hinit : ScanInvS cfg.folderPath {} := by
    refine ⟨?_, ?_, ?_⟩ <;> intro x hx <;> exact absurd hx (List.not_mem_nil x)
  have h := walkDir_soundS cfg cfg.folderPath root {} hwf hinit
    (fun hres =>
      ⟨[], hres, fun c hc => absurd hc (List.not_mem_nil c), trivial, rfl⟩)
  unfold scannerRun
  cases hw : walkDir cfg cfg.folderPath root {} with
  | error st =>
    rw [hw] at h
    exact h
  | ok st =>
    rw [hw] at h
    by_cases hc : scanCancelled cfg st = true <;> simp [hc] <;> exact h

/-! ## Uniqueness of plain-name decompositions -/

theorem chain_path_tail (comps : List String) :
    ∀ (a : String), a ≠ "" → a.toList.getLast? ≠ some '/' →
      (∀ c ∈ comps, plain_name c = true) →
      (chain_path a comps).toList = a.toList ++ comps_tail comps ∧
      chain_path a comps ≠ "" ∧
      (chain_path a comps).toList.getLast? ≠ some '/' := by
  induction comps with
  | nil =>
    intro a ha ha2 _
    refine ⟨?_, ha, ha2⟩
    show a.toList = a.toList ++ comps_tail []
    simp [comps_tail]
  | cons c rest ih =>
    intro a ha ha2 hc
    have hpc : plain_name c = true := hc c (List.mem_cons_self c rest)
    have hrest : ∀ x ∈ rest, plain_name x = true :=
      fun x hx => hc x (List.mem_cons_of_mem c hx)
    have hj : py_join a c = a ++ "/" ++ c := py_join_plain a c ha ha2 hpc
    have hslash : ("/" : String).toList = ['/'] := rfl
    have hjl : (py_join a c).toList = a.toList ++ '/' :: c.toList := by
      rw [hj, str_toList_append, str_toList_append, hslash, List.append_assoc]
      rfl
    have hjne : py_join a c ≠ "" := by
      intro h0
      have h1 : (py_join a c).toList = [] := by rw [h0]; rfl
      rw [hjl] at h1
      simp at h1
    have hclast : c.toList.getLast? ≠ some '/' := plain_getLast_ne_slash c hpc
    have hcl_ne : c.toList ≠ [] := plain_name_ne_nil c hpc
    obtain ⟨y, hy⟩ := Option.isSome_iff_exists.1 (List.getLast?_isSome.2 hcl_ne)
    have hyne : y ≠ '/' := fun h0 => hclast (h0 ▸ hy)
    have hlast2 : ('/' :: c.toList).getLast? = some y := by
      have hcast : ('/' :: c.toList) = ['/'] ++ c.toList := rfl
      rw [hcast, List.getLast?_append, hy]
      rfl
    have hjlast : (py_join a c).toList.getLast? ≠ some '/' := by
      rw [hjl, List.getLast?_append, hlast2]
      intro hh
      exact hyne (Option.some.inj hh)
    obtain ⟨ih1, ih2, ih3⟩ := ih (py_join a c) hjne hjlast hrest
    refine ⟨?_, ?_, ?_⟩
    · show (chain_path (py_join a c) rest).toList = a.toList ++ comps_tail (c :: rest)
      rw [ih1, hjl]
      simp [comps_tail, List.append_assoc]
    · show chain_path (py_join a c) rest ≠ ""
      exact ih2
    · show (chain_path (py_join a c) rest).toList.getLast? ≠ some '/'
      exact ih3

theorem comps_tail_count (comps : List String)
    (hc : ∀ c ∈ comps, plain_name c = true) :
    (comps_tail comps).count '/' = comps.length := by
  induction comps with
  | nil => rfl
  | cons c rest ih =>
    have hcc : '/' ∉ c.toList :=
      plain_name_no_slash c (hc c (List.mem_cons_self c rest))
    have hrest : ∀ x ∈ rest, plain_name x = true :=
      fun x hx => hc x (List.mem_cons_of_mem c hx)
    show ('/' :: (c.toList ++ comps_tail rest)).count '/' = rest.length + 1
    rw [List.count_cons_self, List.count_append, ih hrest,
      List.count_eq_zero.2 hcc]
    omega

theorem split_slash_unique :
    ∀ (a c b d : List Char), '/' ∉ a → '/' ∉ c →
      a ++ '/' :: b = c ++ '/' :: d → a = c ∧ b = d := by
  intro a
  induction a with
  | nil =>
    intro c b d _ hc h
    cases c with
    | nil => simpa using h
    | cons y ys =>
      simp only [List.nil_append, List.cons_append, List.cons.injEq] at h
      exact absurd (show '/' ∈ y :: ys by
        rw [h.1]; exact List.mem_cons_self y ys) hc
  | cons x xs ih =>
    intro c b d ha hc h
    cases c with
    | nil =>
      simp only [List.cons_append, List.nil_append, List.cons.injEq] at h
      exact absurd (show '/' ∈ x :: xs by
        rw [← h.1]; exact List.mem_cons_self x xs) ha
    | cons y ys =>
      simp only [List.cons_append, List.cons.injEq] at h
      obtain ⟨rfl, h2⟩ := h
      have ha' : '/' ∉ xs := fun hm => ha (List.mem_cons_of_mem x hm)
      have hc' : '/' ∉ ys := fun hm => hc (List.mem_cons_of_mem x hm)
      obtain ⟨h3, h4⟩ := ih ys b d ha' hc' h2
      exact ⟨by rw [h3], h4⟩

theorem inside_results_not_sound :
    ¬ ∃ comps f, is_result_directory "/data/photos" = false ∧
      (∀ c ∈ comps, plain_name c = true) ∧ plain_name f = true ∧
      good_chain "/data/photos" comps ∧
      "/data/photos/photos_gemini_results/x.jpg" =
        py_join (chain_path "/data/photos" comps) f := by
  rintro ⟨comps, f, _, hcpl, hpf, hgc, heq⟩
  have hroot_ne : ("/data/photos" : String) ≠ "" := by decide
  have hroot_last : ("/data/photos" : String).toList.getLast? ≠ some '/' := by
    decide
  obtain ⟨htl, hne, hlast⟩ :=
    chain_path_tail comps "/data/photos" hroot_ne hroot_last hcpl
  rw [py_join_plain (chain_path "/data/photos" comps) f hne hlast hpf] at heq
  have hslash : ("/" : String).toList = ['/'] := rfl
  have hlist : ("/data/photos/photos_gemini_results/x.jpg" : String).toList =
      ("/data/photos" : String).toList ++
        (comps_tail comps ++ '/' :: f.toList) := by
    rw [heq, str_toList_append, str_toList_append, hslash, htl,
      List.append_assoc, List.append_assoc]
    rfl
  have hconcrete : ("/data/photos/photos_gemini_results/x.jpg" : String).toList =
      ("/data/photos" : String).toList ++
        ("/photos_gemini_results/x.jpg" : String).toList := by decide
  have hsuffix : ("/photos_gemini_results/x.jpg" : String).toList =
      comps_tail comps ++ '/' :: f.toList :=
    List.append_cancel_left (hconcrete.symm.trans hlist)
  have hfcount : f.toList.count '/' = 0 :=
    List.count_eq_zero.2 (plain_name_no_slash f hpf)
  have hcnt := congrArg (fun l => l.count '/') hsuffix
  simp only [List.count_append, List.count_cons_self,
    comps_tail_count comps hcpl, hfcount] at hcnt
  have hcnt2 : (("/photos_gemini_results/x.jpg" : String).toList).count '/' = 2 := by
    decide
  rw [hcnt2] at hcnt
  have hlen : comps.length = 1 := by omega
  obtain ⟨c, rfl⟩ := List.length_eq_one.1 hlen
  have hpc : plain_name c = true := hcpl c (List.mem_cons_self c [])
  have hsuffix2 : "photos_gemini_results/x.jpg".toList =
      c.toList ++ '/' :: f.toList := by
    have h0 : comps_tail [c] = '/' :: (c.toList ++ []) := rfl
    rw [h0, List.append_nil] at hsuffix
    have h1 : ("/photos_gemini_results/x.jpg" : String).toList =
        '/' :: ("photos_gemini_results/x.jpg" : String).toList := by decide
    rw [h1] at hsuffix
    simp only [List.cons_append, List.cons.injEq] at hsuffix
    exact hsuffix.2
  have hcsplit : ("photos_gemini_results/x.jpg" : String).toList =
      ("photos_gemini_results" : String).toList ++
        '/' :: ("x.jpg" : String).toList := by decide
  obtain ⟨hc1, _⟩ := split_slash_unique ("photos_gemini_results" : String).toList
    c.toList ("x.jpg" : String).toList f.toList
    (by decide) (plain_name_no_slash c hpc) (hcsplit.symm.trans hsuffix2)
  have hcval : c = "photos_gemini_results" := (str_toList_inj _ _ hc1).symm
  subst hcval
  have hgc1 : is_result_directory
      (py_join "/data/photos" "photos_gemini_results") = false := by
    simpa [good_chain] using hgc
  have hgc2 : is_result_directory
      (py_join "/data/photos" "photos_gemini_results") = true := by decide
  rw [hgc2] at hgc1
  exact Bool.noConfusion hgc1

/-! ## Claim theorems: work discovery and the consumer handoff -/

/-- C5: over any directory tree whose entry names are plain — nonempty and
free of the path separator, as `os.walk` yields them — everything the scanner
collects: every path in the pending list and in the already-processed
mapping, and every directory whose contents the walk examined, decomposes
along a chain of plain-name directory components none of whose joined paths
matches the results-directory pattern, ending (for a reported path) in a
plain filename; so a directory such as `photos_gemini_results` is pruned
outright: it is never descended into and none of its contents are
reported. -/
theorem C5_result_dirs_pruned (cfg : ScanCfg) (root : FSDir)
    (hwf : dirWF root = true) :
    (∀ p ∈ (scannerRun cfg root).2.imageFiles ++
        ((scannerRun cfg root).2.alreadyProcessed.map Prod.fst),
      ∃ comps f, is_result_directory cfg.folderPath = false ∧
        (∀ c ∈ comps, plain_name c = true) ∧ plain_name f = true ∧
        good_chain cfg.folderPath comps ∧
        p = py_join (chain_path cfg.folderPath comps) f) ∧
    (∀ dir ∈ (scannerRun cfg root).2.visited,
      ∃ comps, is_result_directory cfg.folderPath = false ∧
        (∀ c ∈ comps, plain_name c = true) ∧
        good_chain cfg.folderPath comps ∧
        dir = chain_path cfg.folderPath comps) := by
  obtain ⟨h1, h2, h3⟩ := scannerRun_soundS cfg root hwf
  constructor
  · intro p hp
    rcases List.mem_append.1 hp with h | h
    · obtain ⟨comps, f, a, b, b2, b3, _, _, e⟩ := h1 p h
      exact ⟨comps, f, a, b, b2, b3, e⟩
    · obtain ⟨pr, hpr, rfl⟩ := List.mem_map.1 h
      obtain ⟨comps, f, a, b, b2, b3, _, _, e⟩ := h2 pr hpr
      exact ⟨comps, f, a, b, b2, b3, e⟩
  · exact h3

/-- Witness for C5: a plain-named tree containing `photos_gemini_results`
with a file inside satisfies the well-formedness hypothesis; the scan reports
only `a.jpg` and `sub/b.png`, never the pruned directory's contents; the
reported path decomposes along plain non-result components; and no such
decomposition exists for the path inside the pruned directory, so the
strengthened predicate genuinely excludes it. -/
theorem C5_result_dirs_pruned_witness :
    (dirWF (.node "photos"
        [.node "photos_gemini_results" [] ["x.jpg"], .node "sub" [] ["b.png"]]
        ["a.jpg"]) = true) ∧
    ((scannerRun ⟨"/data/photos", fun _ => false, none, none⟩
        (.node "photos"
          [.node "photos_gemini_results" [] ["x.jpg"], .node "sub" [] ["b.png"]]
          ["a.jpg"])).2.imageFiles =
      ["/data/photos/a.jpg", "/data/photos/sub/b.png"]) ∧
    ("/data/photos/a.jpg" ∈
      (scannerRun ⟨"/data/photos", fun _ => false, none, none⟩
        (.node "photos"
          [.node "photos_gemini_results" [] ["x.jpg"], .node "sub" [] ["b.png"]]
          ["a.jpg"])).2.imageFiles ++
        (((scannerRun ⟨"/data/photos", fun _ => false, none, none⟩
          (.node "photos"
            [.node "photos_gemini_results" [] ["x.jpg"],
             .node "sub" [] ["b.png"]]
            ["a.jpg"])).2.alreadyProcessed).map Prod.fst) ∧
      ∃ comps f, is_result_directory "/data/photos" = false ∧
        (∀ c ∈ comps, plain_name c = true) ∧ plain_name f = true ∧
        good_chain "/data/photos" comps ∧
        "/data/photos/a.jpg" = py_join (chain_path "/data/photos" comps) f) ∧
    ¬ (∃ comps f, is_result_directory "/data/photos" = false ∧
        (∀ c ∈ comps, plain_name c = true) ∧ plain_name f = true ∧
        good_chain "/data/photos" comps ∧
        "/data/photos/photos_gemini_results/x.jpg" =
          py_join (chain_path "/data/photos" comps) f) := by
  have hwf : dirWF (.node "photos"
      [.node "photos_gemini_results" [] ["x.jpg"], .node "sub" [] ["b.png"]]
      ["a.jpg"]) = true := by
    norm_num +decide [dirWF, dirsWF, plain_name]
  have heval : (scannerRun ⟨"/data/photos", fun _ => false, none, none⟩
      (.node "photos"
        [.node "photos_gemini_results" [] ["x.jpg"], .node "sub" [] ["b.png"]]
        ["a.jpg"])).2.imageFiles =
      ["/data/photos/a.jpg", "/data/photos/sub/b.png"] := by
    norm_num +decide [scannerRun, walkDir, walkDirs, processFiles,
      scanCancelled, scanFails]
  have hmem : "/data/photos/a.jpg" ∈
      (scannerRun ⟨"/data/photos", fun _ => false, none, none⟩
        (.node "photos"
          [.node "photos_gemini_results" [] ["x.jpg"], .node "sub" [] ["b.png"]]
          ["a.jpg"])).2.imageFiles ++
        (((scannerRun ⟨"/data/photos", fun _ => false, none, none⟩
          (.node "photos"
            [.node "photos_gemini_results" [] ["x.jpg"],
             .node "sub" [] ["b.png"]]
            ["a.jpg"])).2.alreadyProcessed).map Prod.fst) := by
    rw [List.mem_append, heval]
    left
    simp
  exact ⟨hwf, heval,
    ⟨hmem,
      (C5_result_dirs_pruned ⟨"/data/photos", fun _ => false, none, none⟩
        (.node "photos"
          [.node "photos_gemini_results" [] ["x.jpg"], .node "sub" [] ["b.png"]]
          ["a.jpg"]) hwf).1 "/data/photos/a.jpg" hmem⟩,
    inside_results_not_sound⟩

/-- C10: every path the scanner reports — pending or already-processed —
comes from a filename that does not contain "gemini" in any letter case and
that carries a recognized image extension; hence a file whose name contains
"gemini" is excluded from candidacy outright, regardless of its extension
or of any outputs on disk. -/
theorem C10_gemini_files_excluded (cfg : ScanCfg) (root : FSDir) :
    ∀ p ∈ (scannerRun cfg root).2.imageFiles ++
        ((scannerRun cfg root).2.alreadyProcessed.map Prod.fst),
      ∃ dir f, is_result_file f = false ∧ has_image_extension f = true ∧
        p = py_join dir f := by
  obtain ⟨h1, h2, _⟩ := scannerRun_sound cfg root
  intro p hp
  rcases List.mem_append.1 hp with h | h
  · obtain ⟨comps, f, _, _, c, d, e⟩ := h1 p h
    exact ⟨chain_path cfg.folderPath comps, f, c, d, e⟩
  · obtain ⟨pr, hpr, rfl⟩ := List.mem_map.1 h
    obtain ⟨comps, f, _, _, c, d, e⟩ := h2 pr hpr
    exact ⟨chain_path cfg.folderPath comps, f, c, d, e⟩

/-- Witness for C10: a scan over a tree holding `My_GEMINI_shot.jpg` (an
ordinary extension, "gemini" in mixed case) reports only `a.jpg`, whose
decomposition the theorem supplies. -/
theorem C10_gemini_files_excluded_witness :
    ((scannerRun ⟨"/d", fun _ => false, none, none⟩
        (.node "d" [] ["My_GEMINI_shot.jpg", "a.jpg"])).2.imageFiles =
      ["/d/a.jpg"]) ∧
    ("/d/a.jpg" ∈
      (scannerRun ⟨"/d", fun _ => false, none, none⟩
        (.node "d" [] ["My_GEMINI_shot.jpg", "a.jpg"])).2.imageFiles ++
        (((scannerRun ⟨"/d", fun _ => false, none, none⟩
          (.node "d" [] ["My_GEMINI_shot.jpg", "a.jpg"])).2.alreadyProcessed).map
            Prod.fst) ∧
      ∃ dir f, is_result_file f = false ∧ has_image_extension f = true ∧
        "/d/a.jpg" = py_join dir f) := by
  have heval : (scannerRun ⟨"/d", fun _ => false, none, none⟩
      (.node "d" [] ["My_GEMINI_shot.jpg", "a.jpg"])).2.imageFiles =
      ["/d/a.jpg"] := by
    norm_num +decide [scannerRun, walkDir, walkDirs, processFiles,
      scanCancelled, scanFails]
  have hmem : "/d/a.jpg" ∈
      (scannerRun ⟨"/d", fun _ => false, none, none⟩
        (.node "d" [] ["My_GEMINI_shot.jpg", "a.jpg"])).2.imageFiles ++
        (((scannerRun ⟨"/d", fun _ => false, none, none⟩
          (.node "d" [] ["My_GEMINI_shot.jpg", "a.jpg"])).2.alreadyProcessed).map
            Prod.fst) := by
    rw [List.mem_append, heval]
    left
    simp
  exact ⟨heval, hmem,
    C10_gemini_files_excluded ⟨"/d", fun _ => false, none, none⟩
      (.node "d" [] ["My_GEMINI_shot.jpg", "a.jpg"]) "/d/a.jpg" hmem⟩

/-- C8: when an I/O failure strikes the walk (the walk does not return
normally), no exception escapes `run`: the scan emits no result list and a
single completion event carrying the count 0. -/
theorem C8_scan_failure_degrades (cfg : ScanCfg) (root : FSDir)
    (h : ∀ st', walkDir cfg cfg.folderPath root {} ≠ .ok st') :
    (scannerRun cfg root).1 = [ScanEvent.scanFinished 0] := by
  unfold scannerRun
  cases hw : walkDir cfg cfg.folderPath root {} with
  | error st => rfl
  | ok st => exact absurd hw (h st)

/-- Witness for C8: a scan whose first directory visit raises emits exactly
`scan_finished(0)`. -/
theorem C8_scan_failure_degrades_witness :
    (scannerRun ⟨"/d", fun _ => false, none, some 0⟩
      (.node "d" [] ["a.jpg"])).1 = [ScanEvent.scanFinished 0] := by
  have hw : walkDir ⟨"/d", fun _ => false, none, some 0⟩ "/d"
      (.node "d" [] ["a.jpg"]) {} = .error {} :=
    walkDir_fails _ _ _ _ (by decide) (by decide)
  exact C8_scan_failure_degrades ⟨"/d", fun _ => false, none, some 0⟩
    (.node "d" [] ["a.jpg"]) (fun st' hst' => by rw [hw] at hst'; cases hst')

/-- C9 (counterexample): cancellation mid-walk suppresses both emissions —
the cancelled scan emits nothing at all, while the same scan uncancelled
emits the pending list and the completion count; so the claim that the
pending list and the completion event are also emitted when the scan is
cancelled mid-walk is false. -/
theorem C9_counterexample :
    (scannerRun ⟨"/data/photos", fun _ => false, some 1, none⟩
      (.node "photos" [.node "sub" [] []] ["a.jpg"])).1 = [] ∧
    (scannerRun ⟨"/data/photos", fun _ => false, none, none⟩
      (.node "photos" [.node "sub" [] []] ["a.jpg"])).1 =
      [ScanEvent.filesFound ["/data/photos/a.jpg"], ScanEvent.scanFinished 1] := by
  constructor <;>
    norm_num +decide [scannerRun, walkDir, walkDirs, processFiles,
      scanCancelled, scanFails]

/-- C9 (amended): the pending list and the completion event (carrying
pending + already-processed) are emitted exactly when the scan finishes
without cancellation; a scan that observes the cancellation flag emits
nothing. -/
theorem C9_scan_emissions (cfg : ScanCfg) (root : FSDir) :
    (cfg.cancelAfter = none → cfg.failAfter = none →
      (scannerRun cfg root).1 =
        [ScanEvent.filesFound (scannerRun cfg root).2.imageFiles,
         ScanEvent.scanFinished ((scannerRun cfg root).2.imageFiles.length +
           (scannerRun cfg root).2.alreadyCount)]) ∧
    (∀ st', walkDir cfg cfg.folderPath root {} = .ok st' →
      scanCancelled cfg st' = true → (scannerRun cfg root).1 = []) := by
  constructor
  · intro hc hf
    obtain ⟨st', hw⟩ := walkDir_no_error cfg hf cfg.folderPath root {}
    unfold scannerRun
    rw [hw]
    simp [scanCancelled_none cfg hc]
  · intro st' hw hcan
    unfold scannerRun
    rw [hw]
    simp [hcan]

/-- Witness for C9 (amended): the uncancelled scan emits its two events with
the evaluated payload, and the cancelled scan emits nothing. -/
theorem C9_scan_emissions_witness :
    (scannerRun ⟨"/data/photos", fun _ => false, none, none⟩
      (.node "photos" [.node "sub" [] []] ["a.jpg"])).1 =
      [ScanEvent.filesFound
        (scannerRun ⟨"/data/photos", fun _ => false, none, none⟩
          (.node "photos" [.node "sub" [] []] ["a.jpg"])).2.imageFiles,
       ScanEvent.scanFinished
        ((scannerRun ⟨"/data/photos", fun _ => false, none, none⟩
          (.node "photos" [.node "sub" [] []] ["a.jpg"])).2.imageFiles.length +
          (scannerRun ⟨"/data/photos", fun _ => false, none, none⟩
            (.node "photos" [.node "sub" [] []] ["a.jpg"])).2.alreadyCount)] ∧
    (scannerRun ⟨"/data/photos", fun _ => false, some 1, none⟩
      (.node "photos" [.node "sub" [] []] ["a.jpg"])).1 = [] := by
  refine ⟨(C9_scan_emissions ⟨"/data/photos", fun _ => false, none, none⟩
    (.node "photos" [.node "sub" [] []] ["a.jpg"])).1 rfl rfl, ?_⟩
  refine (C9_scan_emissions ⟨"/data/photos", fun _ => false, some 1, none⟩
    (.node "photos" [.node "sub" [] []] ["a.jpg"])).2
    { imageFiles := [], alreadyProcessed := [], alreadyCount := 0,
      skippedDirCount := 0, skippedFileCount := 0,
      visited := ["/data/photos"], steps := 1 } ?_ (by decide)
  norm_num +decide [walkDir, walkDirs, processFiles, scanCancelled, scanFails]

/-- C6: the pending sequence handed to the consumer by `on_folder_scanned`
is sorted in the lexicographic string order (Python's `sorted`), and none of
its elements is a key of the already-processed mapping. -/
theorem C6_pending_sorted_disjoint (fsExists : String → Bool)
    (already : List (String × String)) (image_files : List String) :
    List.Sorted (· ≤ ·) (on_folder_scanned fsExists already image_files).1 ∧
    ∀ p ∈ (on_folder_scanned fsExists already image_files).1,
      p ∉ (on_folder_scanned fsExists already image_files).2.map Prod.fst := by
  constructor
  · exact List.sorted_mergeSort' _
  · intro p hp hkey
    have hp' : p ∈ (image_files.filter (fun q =>
        ¬ (dict_of_pairs (already.filter (fun pr =>
          pr.1 ≠ "" && pr.2 ≠ "" && fsExists pr.2))).any (fun q' => q'.1 = q))) := by
      simpa [on_folder_scanned] using List.mem_mergeSort.1 hp
    obtain ⟨-, hpred⟩ := List.mem_filter.1 hp'
    obtain ⟨x, hx⟩ : ∃ x, (p, x) ∈ dict_of_pairs (already.filter (fun pr =>
        pr.1 ≠ "" && pr.2 ≠ "" && fsExists pr.2)) := by
      simpa [on_folder_scanned] using hkey
    simp only [decide_eq_true_eq] at hpred
    exact hpred (List.any_eq_true.2 ⟨(p, x), hx, by simp⟩)

/-- Witness for C6 at a concrete scan handoff. -/
theorem C6_pending_sorted_disjoint_witness :
    (on_folder_scanned (fun s => s = "r1") [("b.jpg", "r1"), ("", "r2")]
      ["z.jpg", "b.jpg", "a.jpg"]).1 = ["a.jpg", "z.jpg"] ∧
    "a.jpg" ∈ (on_folder_scanned (fun s => s = "r1") [("b.jpg", "r1"), ("", "r2")]
      ["z.jpg", "b.jpg", "a.jpg"]).1 ∧
    "a.jpg" ∉ (on_folder_scanned (fun s => s = "r1") [("b.jpg", "r1"), ("", "r2")]
      ["z.jpg", "b.jpg", "a.jpg"]).2.map Prod.fst := by
  have heval : (on_folder_scanned (fun s => s = "r1") [("b.jpg", "r1"), ("", "r2")]
      ["z.jpg", "b.jpg", "a.jpg"]).1 = ["a.jpg", "z.jpg"] := by
    norm_num +decide [on_folder_scanned, dict_of_pairs, dict_insert,
      List.mergeSort]
  have hmem : "a.jpg" ∈ (on_folder_scanned (fun s => s = "r1")
      [("b.jpg", "r1"), ("", "r2")] ["z.jpg", "b.jpg", "a.jpg"]).1 := by
    rw [heval]
    simp
  exact ⟨heval, hmem,
    (C6_pending_sorted_disjoint (fun s => s = "r1") [("b.jpg", "r1"), ("", "r2")]
      ["z.jpg", "b.jpg", "a.jpg"]).2 "a.jpg" hmem⟩

end GeminiWorkers
